import Mathlib

/-!
Shallow embedding of `src/math.js` (the peak-finding core of the
`iot-map-view` repository) and verification of its specification.

Modelling conventions:
* A JS number taken from the signal is an exact rational (`ℚ`); the spec
  declares the Signal to be a sequence of real numbers.
* A JS value that may be `undefined` or `NaN` is modelled as `Option ℚ`
  (`none` = `undefined`/`NaN`).  In JS, every `<`/`<=` comparison against
  `undefined` or `NaN` is `false`, and arithmetic involving them yields
  `NaN`; the `jsLt`/`jsLe`/`jsSub`/... helpers below reproduce exactly that.
* `x[i]` with a fractional or out-of-range index yields `undefined` in JS;
  `qGet` reproduces this (plateau midpoints `(l+r)/2` can be half-integers,
  so fractional indices genuinely occur downstream of `localMaxima1D`).
* JS `while` loops are modelled as structural recursion on an explicit
  fuel argument.  At every call site the fuel passed is strictly larger
  than the number of iterations the JS loop can perform (each loop moves
  an index by one step through a range bounded by the signal/peak array
  length), so the fuel-exhaustion branch is unreachable and the fueled
  function equals the JS loop.
* A thrown `Error` is modelled as `Except.error` carrying the message.
-/

namespace IotMapView

/-- A JS numeric value that may be `undefined`/`NaN` (`none`). -/
abbrev JSVal := Option ℚ

/-- JS array indexing `x[i]` with an integer index: `undefined` out of range. -/
def intGet (x : List ℚ) (i : ℤ) : JSVal :=
  if h : 0 ≤ i ∧ i.toNat < x.length then some (x.get ⟨i.toNat, h.2⟩) else none

/-- JS array indexing `x[i]` with an arbitrary numeric index: a fractional
index is not an array key, so the access yields `undefined`. -/
def qGet (x : List ℚ) (i : ℚ) : JSVal :=
  if i.den = 1 then intGet x i.num else none

/-- JS `a < b`: false whenever either side is `undefined`/`NaN`. -/
def jsLt (a b : JSVal) : Bool :=
  match a, b with
  | some a, some b => a < b
  | _, _ => false

/-- JS `a <= b`: false whenever either side is `undefined`/`NaN`. -/
def jsLe (a b : JSVal) : Bool :=
  match a, b with
  | some a, some b => a ≤ b
  | _, _ => false

/-- JS `a - b`: `NaN` propagates. -/
def jsSub (a b : JSVal) : JSVal :=
  match a, b with
  | some a, some b => some (a - b)
  | _, _ => none

/-- JS `a + b`: `NaN` propagates. -/
def jsAdd (a b : JSVal) : JSVal :=
  match a, b with
  | some a, some b => some (a + b)
  | _, _ => none

/-- JS `a * b`: `NaN` propagates (in particular `NaN * 0 = NaN`). -/
def jsMul (a b : JSVal) : JSVal :=
  match a, b with
  | some a, some b => some (a * b)
  | _, _ => none

/-- JS `a / b`: `NaN` propagates.  A zero divisor is also mapped to `none`
(JS would give `±Infinity`); every division in this development is reached
only with a provably nonzero divisor, see `widthOne`. -/
def jsDiv (a b : JSVal) : JSVal :=
  match a, b with
  | some a, some b => if b = 0 then none else some (a / b)
  | _, _ => none

/-- JS `Math.max(a, b)`: `NaN` propagates. -/
def jsMax (a b : JSVal) : JSVal :=
  match a, b with
  | some a, some b => some (max a b)
  | _, _ => none

/-- Recursive core of `jsFilterMask`: keep the element at position `i` of
the original array iff `keep[i]` is `true` (an index beyond `keep.length`
reads `undefined`, which is falsy). -/
def maskFrom {α : Type} (keep : List Bool) : ℕ → List α → List α
  | _, [] => []
  | i, a :: l =>
    if keep.getD i false then a :: maskFrom keep (i + 1) l else maskFrom keep (i + 1) l

/-- JS `Array.prototype.filter((_, i) => keep[i])`. -/
def jsFilterMask {α : Type} (keep : List Bool) (l : List α) : List α :=
  maskFrom keep 0 l

/-! ### localMaxima1D (src/math.js lines 158-192) -/

/-- The inner plateau scan of `localMaxima1D`:
`while (iAhead < iMax && x[iAhead] === x[i]) iAhead += 1`.
`xi` is `x[i]`; both sides of the `===` are in-range reads here, and for
rational inputs `===` is rational equality. -/
def plateauEnd (x : List ℚ) (iMax : ℕ) (xi : JSVal) : ℕ → ℕ → ℕ
  | 0, iAhead => iAhead
  | fuel + 1, iAhead =>
    if iAhead < iMax ∧ intGet x iAhead = xi then plateauEnd x iMax xi fuel (iAhead + 1)
    else iAhead

/-- The main scan of `localMaxima1D`, returning the `(leftEdge, rightEdge)`
pairs in order.  At `i = 0` the JS guard `x[i-1] < x[i]` reads
`x[-1] = undefined` and is false, which `jsLt`/`intGet` reproduce.
After recording a maximum the scan resumes at `iAhead + 1`
(`i = iAhead` followed by `i += 1`); otherwise it advances by one. -/
def lmScan (x : List ℚ) (iMax : ℕ) : ℕ → ℕ → List (ℕ × ℕ)
  | 0, _ => []
  | fuel + 1, i =>
    if i < iMax then
      if jsLt (intGet x ((i : ℤ) - 1)) (intGet x i) then
        let iAhead := plateauEnd x iMax (intGet x i) x.length (i + 1)
        if jsLt (intGet x iAhead) (intGet x i) then
          (i, iAhead - 1) :: lmScan x iMax fuel (iAhead + 1)
        else lmScan x iMax fuel (i + 1)
      else lmScan x iMax fuel (i + 1)
    else []

structure LocalMaxima where
  midpoints : List ℚ
  leftEdges : List ℕ
  rightEdges : List ℕ
deriving DecidableEq

/-- `localMaxima1D(x)`: plateau-aware local maxima.  The midpoint is the
un-floored average `(leftEdge + rightEdge) / 2`, hence possibly a
half-integer. -/
def localMaxima1D (x : List ℚ) : LocalMaxima :=
  let pairs := lmScan x (x.length - 1) (x.length + 1) 0
  { midpoints := pairs.map fun p => ((p.1 : ℚ) + (p.2 : ℚ)) / 2
    leftEdges := pairs.map Prod.fst
    rightEdges := pairs.map Prod.snd }

/-! ### Bounds and unpackConditionArgs (src/math.js lines 194-227) -/

/-- One element of a bound interval supplied by the caller: a plain number
or a per-sample array. -/
inductive BElem where
  | num (v : ℚ)
  | arr (vs : List ℚ)
deriving DecidableEq

/-- The JS shape of a `height`/`prominence`/`width` option value.
A plain number is not iterable, so `[imin, imax] = interval` throws and the
`catch` sets `imin = interval, imax = null`.  An array destructures into its
first two elements (array destructuring never throws; missing elements are
`undefined`). -/
inductive BoundArg where
  | scalar (v : ℚ)
  | pair (elems : List BElem)
deriving DecidableEq

/-- A resolved interval border as used by `selectByProperty`:
`null`/`undefined`, a scalar, or a per-peak projected array. -/
inductive Bound where
  | noBound
  | scalar (v : ℚ)
  | perPeak (vs : List JSVal)
deriving DecidableEq

/-- Resolution of one destructured border inside `unpackConditionArgs`:
an array border must match the signal length and is projected onto the
peaks (`peaks.map((i) => imin[i])`, an out-of-range or fractional peak
index reading `undefined`). -/
def resolveBorder (e : Option BElem) (x : List ℚ) (peaks : List ℚ) (msg : String) :
    Except String Bound :=
  match e with
  | none => .ok .noBound
  | some (.num v) => .ok (.scalar v)
  | some (.arr vs) =>
    if vs.length = x.length then .ok (.perPeak (peaks.map fun i => qGet vs i))
    else .error msg

/-- `unpackConditionArgs(interval, x, peaks)` (src/math.js lines 201-227). -/
def unpackConditionArgs (interval : BoundArg) (x : List ℚ) (peaks : List ℚ) :
    Except String (Bound × Bound) :=
  match interval with
  | .scalar v => .ok (.scalar v, .noBound)
  | .pair elems => do
    let lo ← resolveBorder elems[0]? x peaks "array size of lower interval border must match x"
    let hi ← resolveBorder elems[1]? x peaks "array size of upper interval border must match x"
    return (lo, hi)

/-! ### selectByProperty (src/math.js lines 229-263) -/

/-- `keep[i] &&= pmin <= peakProperties[i]` for the resolved lower border. -/
def lowerOk (pmin : Bound) (i : ℕ) (v : JSVal) : Bool :=
  match pmin with
  | .noBound => true
  | .scalar q => jsLe (some q) v
  | .perPeak vs => jsLe (vs.getD i none) v

/-- `keep[i] &&= peakProperties[i] <= pmax` for the resolved upper border. -/
def upperOk (pmax : Bound) (i : ℕ) (v : JSVal) : Bool :=
  match pmax with
  | .noBound => true
  | .scalar q => jsLe v (some q)
  | .perPeak vs => jsLe v (vs.getD i none)

/-- `selectByProperty(peakProperties, pmin, pmax)` (src/math.js 235-263). -/
def selectByProperty (props : List JSVal) (pmin pmax : Bound) : List Bool :=
  props.mapIdx fun i v => lowerOk pmin i v && upperOk pmax i v

/-! ### selectByPeakDistance (src/math.js lines 265-300) -/

/-- The comparator `([a], [b]) => a - b` of the JS stable sort, as a
boolean "less or equal" on priorities.  When either priority is
`undefined` the subtraction is `NaN`, which the ECMAScript sort treats as
`0` (equal); ties keep the original order (the sort is stable). -/
def priLe (a b : JSVal) : Bool :=
  match a, b with
  | some p, some q => p ≤ q
  | _, _ => true

/-- `priority.map((p, i) => [p, i]).sort(([a],[b]) => a - b).map(([, i]) => i)`:
the indices that stably sort the priority array ascending.  Insertion sort
with a non-strict comparison places each element before the later-indexed
elements of equal priority, which is exactly the stable order the
ECMAScript sort produces for a consistent comparator. -/
def priorityToPosition (priority : List JSVal) : List ℕ :=
  (List.insertionSort (fun a b => priLe a.1 b.1 = true)
    (priority.zip (List.range priority.length))).map Prod.snd

/-- The inner loop `while (0 <= k && peaks[j] - peaks[k] < distance_)
\x7b keep[k] = false; k -= 1 \x7d` of `selectByPeakDistance`. -/
def suppressLeft (peaks : List ℚ) (D : ℤ) (pj : ℚ) : ℕ → ℤ → List Bool → List Bool
  | 0, _, keep => keep
  | fuel + 1, k, keep =>
    if 0 ≤ k ∧ pj - peaks.getD k.toNat 0 < (D : ℚ) then
      suppressLeft peaks D pj fuel (k - 1) (keep.set k.toNat false)
    else keep

/-- The inner loop `while (k < peaksSize && peaks[k] - peaks[j] < distance_)
\x7b keep[k] = false; k += 1 \x7d` of `selectByPeakDistance`. -/
def suppressRight (peaks : List ℚ) (D : ℤ) (pj : ℚ) : ℕ → ℕ → List Bool → List Bool
  | 0, _, keep => keep
  | fuel + 1, k, keep =>
    if k < peaks.length ∧ peaks.getD k 0 - pj < (D : ℚ) then
      suppressRight peaks D pj fuel (k + 1) (keep.set k false)
    else keep

/-- One iteration of the outer loop of `selectByPeakDistance` at counter
`i` (an integer, possibly `-1`).  For `i = -1`, `priorityToPosition[-1]`
is `undefined`, `keep[undefined] === false` is `false` (so no `continue`),
and both inner `while` guards compare against `NaN` and fail: the
iteration is a no-op, modelled by returning `keep` unchanged. -/
def distStep (peaks : List ℚ) (D : ℤ) (ptp : List ℕ) (keep : List Bool) (i : ℤ) :
    List Bool :=
  if h : 0 ≤ i ∧ i.toNat < ptp.length then
    if keep.getD (ptp.get ⟨i.toNat, h.2⟩) false = false then keep
    else
      suppressRight peaks D (peaks.getD (ptp.get ⟨i.toNat, h.2⟩) 0) (peaks.length + 1)
        (ptp.get ⟨i.toNat, h.2⟩ + 1)
        (suppressLeft peaks D (peaks.getD (ptp.get ⟨i.toNat, h.2⟩) 0) (peaks.length + 1)
          ((ptp.get ⟨i.toNat, h.2⟩ : ℤ) - 1) keep)
  else keep

/-- The values taken by the outer loop counter
`for (let i = peaksSize - 2; i >= -1; i--)`: the integers
`peaksSize - 2, peaksSize - 3, ..., 0, -1` in that order. -/
def distIndices (n : ℕ) : List ℤ :=
  (List.range n).reverse.map fun k : ℕ => (k : ℤ) - 1

/-- `selectByPeakDistance(peaks, priority, distance)` (src/math.js 271-300).
The outer loop runs `i` from `peaksSize - 2` down to `-1`: it starts one
short of the last (highest-priority) sorted position and ends with a
no-op `-1` iteration. -/
def selectByPeakDistance (peaks : List ℚ) (priority : List JSVal) (distance : ℚ) :
    List Bool :=
  (distIndices peaks.length).foldl
    (distStep peaks ⌈distance⌉ (priorityToPosition priority))
    (List.replicate peaks.length true)

/-! ### peakProminences (src/math.js lines 302-360) -/

/-- The left base walk: `while (iMin <= i && x[i] <= x[peak]) ...`.
State is the current index, current minimum and its index. -/
def promLeftWalk (x : List ℚ) (xPeak : JSVal) (iMin : ℚ) :
    ℕ → ℚ → JSVal → ℚ → JSVal × ℚ
  | 0, _, lMin, lBase => (lMin, lBase)
  | fuel + 1, i, lMin, lBase =>
    if iMin ≤ i ∧ jsLe (qGet x i) xPeak then
      if jsLt (qGet x i) lMin then
        promLeftWalk x xPeak iMin fuel (i - 1) (qGet x i) i
      else
        promLeftWalk x xPeak iMin fuel (i - 1) lMin lBase
    else (lMin, lBase)

/-- The right base walk: `while (i <= iMax && x[i] <= x[peak]) ...`. -/
def promRightWalk (x : List ℚ) (xPeak : JSVal) (iMax : ℚ) :
    ℕ → ℚ → JSVal → ℚ → JSVal × ℚ
  | 0, _, rMin, rBase => (rMin, rBase)
  | fuel + 1, i, rMin, rBase =>
    if i ≤ iMax ∧ jsLe (qGet x i) xPeak then
      if jsLt (qGet x i) rMin then
        promRightWalk x xPeak iMax fuel (i + 1) (qGet x i) i
      else
        promRightWalk x xPeak iMax fuel (i + 1) rMin rBase
    else (rMin, rBase)

/-- The loop body of `peakProminences` for one peak: bounds check, optional
window restriction, both base walks, and the prominence value
`x[peak] - Math.max(leftMin, rightMin)`. -/
def promOne (x : List ℚ) (wlen : ℤ) (peak : ℚ) : Except String (JSVal × ℚ × ℚ) :=
  let n := x.length
  if ¬((0 : ℚ) ≤ peak ∧ peak ≤ (n : ℚ) - 1) then
    .error "peak is not a valid index for x"
  else
    let iMin : ℚ := if 2 ≤ wlen then max 0 (peak - (wlen : ℚ)) else 0
    let iMax : ℚ := if 2 ≤ wlen then min ((n : ℚ) - 1) (peak + (wlen : ℚ)) else (n : ℚ) - 1
    let left := promLeftWalk x (qGet x peak) iMin (n + 2) peak (qGet x peak) peak
    let right := promRightWalk x (qGet x peak) iMax (n + 2) peak (qGet x peak) peak
    .ok (jsSub (qGet x peak) (jsMax left.1 right.1), left.2, right.2)

/-- `peakProminences(x, peaks, wlen)` (src/math.js 308-360), returning
`(prominences, leftBases, rightBases)`.  The zero-prominence warning is a
non-fatal `console.warn` and does not affect the returned value. -/
def peakProminences (x : List ℚ) (peaks : List ℚ) (wlen : ℤ) :
    Except String (List JSVal × List ℚ × List ℚ) := do
  let results ← peaks.mapM (promOne x wlen)
  return (results.map (·.1), results.map (·.2.1), results.map (·.2.2))

/-! ### peakWidths (src/math.js lines 362-433) -/

/-- The left interpolation walk: `while (iMin < i && height < x[i]) i -= 1`. -/
def widthLeftWalk (x : List ℚ) (hv : JSVal) (iMin : ℚ) : ℕ → ℚ → ℚ
  | 0, i => i
  | fuel + 1, i =>
    if iMin < i ∧ jsLt hv (qGet x i) then widthLeftWalk x hv iMin fuel (i - 1) else i

/-- The right interpolation walk: `while (i < iMax && height < x[i]) i += 1`. -/
def widthRightWalk (x : List ℚ) (hv : JSVal) (iMax : ℚ) : ℕ → ℚ → ℚ
  | 0, i => i
  | fuel + 1, i =>
    if i < iMax ∧ jsLt hv (qGet x i) then widthRightWalk x hv iMax fuel (i + 1) else i

/-- The loop body of `peakWidths` for one peak: the prominence-data validity
check, the evaluation height `x[peak] - prominences[p] * relHeight`, both
walks, and the interpolated crossing positions.  Returns
`(width, widthHeight, leftIp, rightIp)`. -/
def widthOne (x : List ℚ) (relHeight : ℚ) (peak : ℚ) (prom : JSVal) (lb rb : ℚ) :
    Except String (JSVal × JSVal × JSVal × JSVal) :=
  let n := x.length
  if ¬((0 : ℚ) ≤ lb ∧ lb ≤ peak ∧ peak ≤ rb ∧ rb < (n : ℚ)) then
    .error "prominence data is invalid for peak"
  else
    let hv := jsSub (qGet x peak) (jsMul prom (some relHeight))
    let li := widthLeftWalk x hv lb (n + 2) peak
    let leftIp : JSVal :=
      if jsLt (qGet x li) hv then
        jsAdd (some li) (jsDiv (jsSub hv (qGet x li)) (jsSub (qGet x (li + 1)) (qGet x li)))
      else some li
    let ri := widthRightWalk x hv rb (n + 2) peak
    let rightIp : JSVal :=
      if jsLt (qGet x ri) hv then
        jsSub (some ri) (jsDiv (jsSub hv (qGet x ri)) (jsSub (qGet x (ri - 1)) (qGet x ri)))
      else some ri
    .ok (jsSub rightIp leftIp, hv, leftIp, rightIp)

/-- `peakWidths(x, peaks, relHeight, prominences, leftBases, rightBases)`
(src/math.js 370-433), returning `(widths, widthHeights, leftIps,
rightIps)`.  The zero-width warning is a non-fatal `console.warn`.
After the up-front length check all per-index reads are in range, so the
`getD` defaults are never used. -/
def peakWidths (x : List ℚ) (peaks : List ℚ) (relHeight : ℚ)
    (prominences : List JSVal) (leftBases rightBases : List ℚ) :
    Except String (List JSVal × List JSVal × List JSVal × List JSVal) :=
  if relHeight < 0 then
    .error "relHeight must be greater or equal to 0"
  else if ¬(peaks.length = prominences.length ∧ prominences.length = leftBases.length ∧
      leftBases.length = rightBases.length) then
    .error "peaks, prominences, leftBases and rightBases must have the same length"
  else
    ((List.range peaks.length).mapM fun p =>
      widthOne x relHeight (peaks.getD p 0) (prominences.getD p none)
        (leftBases.getD p 0) (rightBases.getD p 0)) >>= fun results =>
    .ok (results.map (·.1), results.map (·.2.1), results.map (·.2.2.1),
      results.map (·.2.2.2))

/-! ### findPeaks (src/math.js lines 74-147) -/

structure FindPeaksOptions where
  height : Option BoundArg := none
  distance : Option ℚ := none
  prominence : Option BoundArg := none
  width : Option BoundArg := none
deriving DecidableEq

/-- The `properties` record built by `findPeaks`; a key is present
(`some`) exactly when some assignment wrote it.  `peakHeights` has three
states, because line 104 (`properties.peakHeights =
properties.peakHeights?.filter(...)`) always runs its assignment: `none`
is an absent key, `some none` is a present key whose value is `undefined`
(distance supplied without height), and `some (some l)` is a present
array.  Every other key is only ever assigned a real array. -/
structure Properties where
  peakHeights : Option (Option (List JSVal)) := none
  prominences : Option (List JSVal) := none
  leftBases : Option (List ℚ) := none
  rightBases : Option (List ℚ) := none
  widths : Option (List JSVal) := none
  widthHeights : Option (List JSVal) := none
  leftIps : Option (List JSVal) := none
  rightIps : Option (List JSVal) := none
deriving DecidableEq

/-- `for (const [key, value] of Object.entries(properties)) properties[key]
= value.filter((_, i) => keep[i])` (src/math.js 119-121 and 142-144): the
same mask applied to every present entry.  When the `peakHeights` key is
present with the value `undefined` (distance supplied without height, see
`distanceStep`), `value.filter` is a property access on `undefined` and
the loop throws a `TypeError`; every other present entry is a real array,
and the entries are updated independently, so iteration order is otherwise
irrelevant. -/
def filterProps (keep : List Bool) (pr : Properties) : Except String Properties :=
  match pr.peakHeights with
  | some none =>
    .error "TypeError: Cannot read properties of undefined (reading filter)"
  | _ => .ok {
      peakHeights := pr.peakHeights.map fun v => v.map (jsFilterMask keep)
      prominences := pr.prominences.map (jsFilterMask keep)
      leftBases := pr.leftBases.map (jsFilterMask keep)
      rightBases := pr.rightBases.map (jsFilterMask keep)
      widths := pr.widths.map (jsFilterMask keep)
      widthHeights := pr.widthHeights.map (jsFilterMask keep)
      leftIps := pr.leftIps.map (jsFilterMask keep)
      rightIps := pr.rightIps.map (jsFilterMask keep) }

structure FindPeaksResult where
  peaks : List ℚ
  properties : Properties
deriving DecidableEq

/-- The running state of `findPeaks`: the current peak list and the
properties accumulated so far. -/
abbrev PState := List ℚ × Properties

/-- The height condition block (src/math.js 92-99).  Note that line 98
stores the UNFILTERED `peakHeights` array: the keep mask is applied to
`peaks` only. -/
def heightStep (x : List ℚ) (height : Option BoundArg) (s : PState) :
    Except String PState :=
  match height with
  | none => .ok s
  | some hArg => do
    let peakHeights := s.1.map fun i => qGet x i
    let b ← unpackConditionArgs hArg x s.1
    let keep := selectByProperty peakHeights b.1 b.2
    return (jsFilterMask keep s.1, { s.2 with peakHeights := some (some peakHeights) })

/-- The distance condition block (src/math.js 100-105).  Line 104 is
`properties.peakHeights = properties.peakHeights?.filter(...)`: the
optional chain yields `undefined` when the key is absent, but the
assignment still runs, so afterwards the key is always PRESENT - with the
filtered array if `height` was supplied, and with the value `undefined`
otherwise. -/
def distanceStep (x : List ℚ) (distance : Option ℚ) (s : PState) : PState :=
  match distance with
  | none => s
  | some d =>
    let keep := selectByPeakDistance s.1 (s.1.map fun i => qGet x i) d
    (jsFilterMask keep s.1,
      { s.2 with peakHeights := some (match s.2.peakHeights with
          | some (some l) => some (jsFilterMask keep l)
          | _ => none) })

/-- The shared prominence computation (src/math.js 106-113), run when
`prominence` or `width` is supplied, with `wlen = -1`. -/
def promComputeStep (x : List ℚ) (needProm : Bool) (s : PState) :
    Except String PState :=
  if needProm then do
    let res ← peakProminences x s.1 (-1)
    return (s.1, { s.2 with
      prominences := some res.1
      leftBases := some res.2.1
      rightBases := some res.2.2 })
  else .ok s

/-- The prominence condition block (src/math.js 114-122).  When it runs,
`properties.prominences` has just been set; the `getD []` default is a
totality artifact and is never used. -/
def promFilterStep (x : List ℚ) (prominence : Option BoundArg) (s : PState) :
    Except String PState :=
  match prominence with
  | none => .ok s
  | some pArg => do
    let b ← unpackConditionArgs pArg x s.1
    let keep := selectByProperty (s.2.prominences.getD []) b.1 b.2
    let pr2 ← filterProps keep s.2
    return (jsFilterMask keep s.1, pr2)

/-- The width block (src/math.js 123-145): `peakWidths` with the hardwired
`relHeight = 0`, then the width condition filter. -/
def widthStep (x : List ℚ) (width : Option BoundArg) (s : PState) :
    Except String PState :=
  match width with
  | none => .ok s
  | some wArg => do
    let res ← peakWidths x s.1 0 (s.2.prominences.getD []) (s.2.leftBases.getD [])
      (s.2.rightBases.getD [])
    let pr := { s.2 with
      widths := some res.1
      widthHeights := some res.2.1
      leftIps := some res.2.2.1
      rightIps := some res.2.2.2 }
    let b ← unpackConditionArgs wArg x s.1
    let keep := selectByProperty (pr.widths.getD []) b.1 b.2
    let pr2 ← filterProps keep pr
    return (jsFilterMask keep s.1, pr2)

/-- The JS guard `isSome(distance) && distance < 1` (src/math.js line 82). -/
def badDistance (distance : Option ℚ) : Bool :=
  match distance with
  | some d => d < 1
  | none => false

/-- The filter pipeline of `findPeaks` after the distance guard
(src/math.js lines 86-146). -/
def findPeaksBody (x : List ℚ) (options : FindPeaksOptions) :
    Except String FindPeaksResult := do
  let s1 ← heightStep x options.height ((localMaxima1D x).midpoints, {})
  let s3 ← promComputeStep x (options.prominence.isSome || options.width.isSome)
    (distanceStep x options.distance s1)
  let s4 ← promFilterStep x options.prominence s3
  let s5 ← widthStep x options.width s4
  return { peaks := s5.1, properties := s5.2 }

/-- `findPeaks(x, options)` (src/math.js 74-147). -/
def findPeaks (x : List ℚ) (options : FindPeaksOptions) :
    Except String FindPeaksResult :=
  if badDistance options.distance then
    .error "distance must be greater or equal to 1"
  else findPeaksBody x options

deriving instance DecidableEq for Except

/-! ### Specification-side definitions used to state claims -/

/-- One conceptual suppression round of the distance filter, as the
(amended) spec describes it: the peak at position `j` suppresses every
other peak strictly closer than `D` samples, in both directions. -/
def specSuppressFrom (peaks : List ℚ) (D : ℤ) (j : ℕ) : ℕ → List Bool → List Bool
  | _, [] => []
  | k, b :: keep =>
    (if k ≠ j ∧ |peaks.getD k 0 - peaks.getD j 0| < (D : ℚ) then false else b) ::
      specSuppressFrom peaks D j (k + 1) keep

/-- The whole-array form of one conceptual suppression round: entry `k` of
the keep mask is cleared iff `k` is another peak strictly closer than `D`
samples to peak `j`. -/
def specSuppress (peaks : List ℚ) (D : ℤ) (j : ℕ) (keep : List Bool) : List Bool :=
  specSuppressFrom peaks D j 0 keep

/-- One round of the conceptual distance filter at sorted position `i`:
look up the peak position, skip it if already suppressed, otherwise let it
suppress its close neighbors. -/
def specDistStep (peaks : List ℚ) (D : ℤ) (ptp : List ℕ) (keep : List Bool) (i : ℕ) :
    List Bool :=
  if keep.getD (ptp.getD i 0) false then specSuppress peaks D (ptp.getD i 0) keep
  else keep

/-- The distance filter as the amended claim C3 describes it: sort the
positions by ascending priority and process them from the SECOND-highest
priority (index `peaksSize - 2`) down to the lowest; the single
highest-priority position is never processed. -/
def selectByPeakDistanceSpec (peaks : List ℚ) (priority : List JSVal) (distance : ℚ) :
    List Bool :=
  ((List.range (peaks.length - 1)).reverse).foldl
    (specDistStep peaks ⌈distance⌉ (priorityToPosition priority))
    (List.replicate peaks.length true)

/-- One destructured interval border is a mismatched per-sample array. -/
def borderMismatch (x : List ℚ) : Option BElem → Prop
  | some (.arr vs) => vs.length ≠ x.length
  | _ => False

/-- The condition under which `unpackConditionArgs` throws for a supplied
bound argument: one of its first two elements is an array whose length
differs from the signal length. -/
def boundMismatch (x : List ℚ) (b : BoundArg) : Prop :=
  match b with
  | .scalar _ => False
  | .pair elems => borderMismatch x elems[0]? ∨ borderMismatch x elems[1]?

/-- `boundMismatch` lifted to an optional option field. -/
def optMismatch (x : List ℚ) : Option BoundArg → Prop
  | none => False
  | some b => boundMismatch x b

/-- The option combination on which the `Object.entries` filter loops
crash: a supplied `distance` without `height` leaves
`properties.peakHeights` present with the value `undefined`
(src/math.js line 104), and the filter loop run by a supplied `prominence`
(lines 119-121) or `width` (lines 142-144) then calls `undefined.filter`,
a `TypeError`. -/
def undefFilterCrash (opts : FindPeaksOptions) : Prop :=
  opts.distance.isSome = true ∧ opts.height = none ∧
    (opts.prominence.isSome = true ∨ opts.width.isSome = true)

/-- A destructured lower interval border that is strictly positive
everywhere: a positive number, or a per-sample array all of whose entries
are positive. -/
def positiveLowerBorder : Option BElem → Prop
  | some (.num c) => 0 < c
  | some (.arr vs) => ∀ v ∈ vs, 0 < v
  | none => False

/-- A bound option that imposes an everywhere-strictly-positive lower
border: a positive scalar, or a pair whose destructured first element is a
positive number or an all-positive per-sample array. -/
def positiveLower : BoundArg → Prop
  | .scalar c => 0 < c
  | .pair elems => positiveLowerBorder elems[0]?

/-- The evaluation height `x[peak] - prominences[p] * relHeight` of
`peakWidths` (src/math.js line 399), as a named subterm of `widthOne`. -/
def widthHv (x : List ℚ) (relHeight peak : ℚ) (prom : JSVal) : JSVal :=
  jsSub (qGet x peak) (jsMul prom (some relHeight))

/-- The interpolated left crossing of `peakWidths` (src/math.js 404-407),
as a named subterm of `widthOne`. -/
def widthLeftIp (x : List ℚ) (hv : JSVal) (li : ℚ) : JSVal :=
  if jsLt (qGet x li) hv then
    jsAdd (some li) (jsDiv (jsSub hv (qGet x li)) (jsSub (qGet x (li + 1)) (qGet x li)))
  else some li

/-- The interpolated right crossing of `peakWidths` (src/math.js 412-415),
as a named subterm of `widthOne`. -/
def widthRightIp (x : List ℚ) (hv : JSVal) (ri : ℚ) : JSVal :=
  if jsLt (qGet x ri) hv then
    jsSub (some ri) (jsDiv (jsSub hv (qGet x ri)) (jsSub (qGet x (ri - 1)) (qGet x ri)))
  else some ri

/-- The per-peak prominence-data invariant established by `peakProminences`:
each base index brackets its peak and stays inside the signal.  Stated over
the zip so that it transports through the shared keep-mask filtering. -/
def PromDataOK (x : List ℚ) (peaks lbs rbs : List ℚ) : Prop :=
  lbs.length = peaks.length ∧ rbs.length = peaks.length ∧
  ∀ t ∈ peaks.zip (lbs.zip rbs),
    0 ≤ t.2.1 ∧ t.2.1 ≤ t.1 ∧ t.1 ≤ t.2.2 ∧ t.2.2 ≤ (x.length : ℚ) - 1

/-! ## Concrete evaluations settling the claims that fail on the code -/

/-- Claim C1 (code bug): the height step's keep mask is NOT applied to the
stored `peakHeights` array (src/math.js line 98 assigns the unfiltered
array).  On `x = [0,1,0,3,0]` with `height = 2` the returned `peaks` is
`[3]` (one peak) while `peakHeights` is `[1, 3]` (two entries, the first
describing the removed peak), contradicting the alignment invariant. -/
theorem c1_peakHeights_misaligned :
    findPeaks [0, 1, 0, 3, 0] { height := some (.scalar 2) } =
      .ok { peaks := [3]
            properties := { peakHeights := some (some [some 1, some 3]) } } ∧
    ¬ ([some (1 : ℚ), some 3].length = [(3 : ℚ)].length) := by
  exact ⟨by with_unfolding_all decide, by with_unfolding_all decide⟩

/-- Claim C5 (code bug): a per-sample height array `a = [10, 0, 10]` on the
signal `x = [0, 5, 0]` (so `a.length = x.length`).  Projection semantics
(the claim, and the JSDoc of `findPeaks`) keeps peak `1` because
`a[1] = 0 ≤ x[1] = 5`; the code instead destructures the array into the
scalar bounds `lower = a[0] = 10`, `upper = a[1] = 0` and removes every
peak. -/
theorem c5_per_sample_height_destructured :
    findPeaks [0, 5, 0] { height := some (.pair [.num 10, .num 0, .num 10]) } =
      .ok { peaks := []
            properties := { peakHeights := some (some [some 5]) } } := by
  with_unfolding_all decide

/-- Claim C9, counterexample to "integer indices": the even plateau
`[0, 1, 1, 0]` yields the single midpoint `3/2`, which is not an integer. -/
theorem c9_noninteger_midpoint :
    findPeaks [0, 1, 1, 0] {} = .ok { peaks := [3 / 2], properties := {} } ∧
    ¬ ((3 / 2 : ℚ).den = 1) := by
  exact ⟨by with_unfolding_all decide, by with_unfolding_all decide⟩

/-- Claim C3, counterexample: on `x = [0, 1, 0, 2, 0]` with `distance = 3`
the two candidate peaks are `1` (height 1) and `3` (height 2) and they
conflict; the claim predicts the highest-priority peak `3` is the sole
survivor, but the outer loop starts at `peaksSize - 2` and never lets the
top-priority peak suppress anyone, so the LOWER peak `1` survives.  (The
returned properties carry the present-but-`undefined` `peakHeights` key
that line 104 creates when `height` is absent.) -/
theorem c3_highest_priority_suppressed :
    findPeaks [0, 1, 0, 2, 0] { distance := some 3 } =
      .ok { peaks := [1], properties := { peakHeights := some none } } := by
  with_unfolding_all decide

/-- Claim C7, counterexample: `x = [0, 5, 3]` rises strictly to the peak at
index 1 and descends strictly to both edges.  The claim predicts prominence
`x[1] - min(x[0], x[2]) = 5 - 0 = 5`; the code computes
`x[1] - max(leftMin, rightMin) = 5 - 3 = 2`. -/
theorem c7_prominence_not_min_edges :
    peakProminences [0, 5, 3] [1] (-1) = .ok ([some 2], [0], [2]) ∧
    ¬ ((2 : ℚ) = 5 - min 0 3) := by
  exact ⟨by with_unfolding_all decide, by with_unfolding_all decide⟩

/-- Claim C8, counterexample: on `x = [0, 5, 2]` the peak `1` has
prominence data `prominence = 3, leftBase = 0, rightBase = 2` (first
conjunct: exactly what `peakProminences` produces).  At relative height 1
the evaluation height is `5 - 3 = 2`; the left walk stops at index 0 and
interpolates the crossing at `2/5`, so `leftIp = 2/5 ≠ leftBase = 0` —
far beyond floating tolerance. -/
theorem c8_width_relheight_one_not_bases :
    peakProminences [0, 5, 2] [1] (-1) = .ok ([some 3], [0], [2]) ∧
    peakWidths [0, 5, 2] [1] 1 [some 3] [0] [2] =
      .ok ([some (8 / 5)], [some 2], [some (2 / 5)], [some 2]) ∧
    ¬ ((2 / 5 : ℚ) = 0) := by
  exact ⟨by with_unfolding_all decide, by with_unfolding_all decide, by with_unfolding_all decide⟩

/-- Claim C10: `findPeaks` is a pure function of the signal and the option
set — the embedding has no randomness and no iteration-order dependence
(the only reflective iteration in the source, `Object.entries(properties)`,
updates each key independently, so its order cannot affect the result).
Two calls on identical input and options yield identical output. -/
theorem findPeaks_deterministic (x : List ℚ) (options : FindPeaksOptions) :
    findPeaks x options = findPeaks x options := rfl

/-! ## Mask-filtering infrastructure -/

theorem maskFrom_sublist {α : Type} (keep : List Bool) (i : ℕ) (l : List α) :
    (maskFrom keep i l).Sublist l := by
  induction l generalizing i with
  | nil => simp [maskFrom]
  | cons a l ih =>
    simp only [maskFrom]
    split
    · exact (ih (i + 1)).cons₂ a
    · exact (ih (i + 1)).cons a

theorem jsFilterMask_sublist {α : Type} (keep : List Bool) (l : List α) :
    (jsFilterMask keep l).Sublist l :=
  maskFrom_sublist keep 0 l

theorem mem_maskFrom {α : Type} {keep : List Bool} {l : List α} {a : α} :
    ∀ {i : ℕ}, a ∈ maskFrom keep i l →
      ∃ k, ∃ hk : k < l.length, l.get ⟨k, hk⟩ = a ∧ keep.getD (i + k) false = true := by
  induction l with
  | nil => intro i h; simp [maskFrom] at h
  | cons b l ih =>
    intro i h
    simp only [maskFrom] at h
    by_cases hb : keep.getD i false = true
    · rw [if_pos hb] at h
      rcases List.mem_cons.mp h with h | h
      · exact ⟨0, Nat.succ_pos _, by simp [h.symm], by simpa using hb⟩
      · obtain ⟨k, hk, he, hkeep⟩ := ih h
        exact ⟨k + 1, by simpa using hk, by simpa using he,
          by rw [show i + (k + 1) = i + 1 + k by omega]; exact hkeep⟩
    · rw [if_neg hb] at h
      obtain ⟨k, hk, he, hkeep⟩ := ih h
      exact ⟨k + 1, by simpa using hk, by simpa using he,
        by rw [show i + (k + 1) = i + 1 + k by omega]; exact hkeep⟩

theorem pairwise_maskFrom {α : Type} {R : α → α → Prop} {keep : List Bool} {l : List α} :
    ∀ {i : ℕ},
      (∀ j k (hj : j < l.length) (hk : k < l.length), j < k →
        keep.getD (i + j) false = true → keep.getD (i + k) false = true →
        R (l.get ⟨j, hj⟩) (l.get ⟨k, hk⟩)) →
      (maskFrom keep i l).Pairwise R := by
  induction l with
  | nil => intro i _; simp [maskFrom]
  | cons a l ih =>
    intro i h
    simp only [maskFrom]
    split
    · refine List.Pairwise.cons ?_ ?_
      · intro b hb
        obtain ⟨k, hk, he, hkeep⟩ := mem_maskFrom hb
        have := h 0 (k + 1) (Nat.succ_pos _) (by simpa using hk) (Nat.succ_pos _)
          (by simpa using ‹keep.getD i false = true›)
          (by rw [show i + (k + 1) = i + 1 + k by omega]; exact hkeep)
        subst he
        simpa using this
      · exact ih fun j k hj hk hjk h1 h2 => by
          have := h (j + 1) (k + 1) (by simpa using hj) (by simpa using hk)
            (by omega) (by rw [show i + (j + 1) = i + 1 + j by omega]; exact h1)
            (by rw [show i + (k + 1) = i + 1 + k by omega]; exact h2)
          simpa using this
    · exact ih fun j k hj hk hjk h1 h2 => by
        have := h (j + 1) (k + 1) (by simpa using hj) (by simpa using hk)
          (by omega) (by rw [show i + (j + 1) = i + 1 + j by omega]; exact h1)
          (by rw [show i + (k + 1) = i + 1 + k by omega]; exact h2)
        simpa using this

theorem maskFrom_map {α β : Type} (f : α → β) (keep : List Bool) :
    ∀ (i : ℕ) (l : List α), maskFrom keep i (l.map f) = (maskFrom keep i l).map f := by
  intro i l
  induction l generalizing i with
  | nil => simp [maskFrom]
  | cons a l ih => simp only [List.map_cons, maskFrom]; split <;> simp [ih]

theorem maskFrom_zip {α β : Type} (keep : List Bool) :
    ∀ (i : ℕ) (l₁ : List α) (l₂ : List β), l₁.length = l₂.length →
      maskFrom keep i (l₁.zip l₂) = (maskFrom keep i l₁).zip (maskFrom keep i l₂) := by
  intro i l₁
  induction l₁ generalizing i with
  | nil => intro l₂ h; simp [maskFrom]
  | cons a l₁ ih =>
    intro l₂ h
    cases l₂ with
    | nil => simp at h
    | cons b l₂ =>
      simp only [List.zip_cons_cons, maskFrom]
      by_cases hb : keep.getD i false = true
      · rw [if_pos hb, if_pos hb, if_pos hb, List.zip_cons_cons]
        exact congrArg (List.cons (a, b)) (ih (i + 1) l₂ (by simpa using h))
      · rw [if_neg hb, if_neg hb, if_neg hb]
        exact ih (i + 1) l₂ (by simpa using h)

theorem maskFrom_length_eq {α β : Type} (keep : List Bool) :
    ∀ (i : ℕ) (l₁ : List α) (l₂ : List β), l₁.length = l₂.length →
      (maskFrom keep i l₁).length = (maskFrom keep i l₂).length := by
  intro i l₁
  induction l₁ generalizing i with
  | nil => intro l₂ h; cases l₂ with
    | nil => rfl
    | cons b l₂ => simp at h
  | cons a l₁ ih =>
    intro l₂ h
    cases l₂ with
    | nil => simp at h
    | cons b l₂ =>
      simp only [maskFrom]
      split <;> simp [ih (i + 1) l₂ (by simpa using h)]

/-! ## localMaxima1D: midpoints are strictly increasing and interior -/

theorem jsLt_some {a b : JSVal} (h : jsLt a b = true) :
    ∃ qa qb, a = some qa ∧ b = some qb ∧ qa < qb := by
  cases a with
  | none => simp [jsLt] at h
  | some qa =>
    cases b with
    | none => simp [jsLt] at h
    | some qb => exact ⟨qa, qb, rfl, rfl, by simpa [jsLt] using h⟩

theorem intGet_bounds {x : List ℚ} {i : ℤ} {q : ℚ} (h : intGet x i = some q) :
    0 ≤ i ∧ i.toNat < x.length := by
  unfold intGet at h
  split at h
  · assumption
  · simp at h

theorem plateauEnd_bounds (x : List ℚ) (iMax : ℕ) (xi : JSVal) :
    ∀ (fuel iA : ℕ), iA ≤ iMax →
      iA ≤ plateauEnd x iMax xi fuel iA ∧ plateauEnd x iMax xi fuel iA ≤ iMax := by
  intro fuel
  induction fuel with
  | zero => intro iA h; exact ⟨le_refl _, h⟩
  | succ fuel ih =>
    intro iA h
    simp only [plateauEnd]
    split
    · rename_i hg
      have := ih (iA + 1) (by omega)
      exact ⟨by omega, this.2⟩
    · exact ⟨le_refl _, h⟩

theorem lmScan_spec (x : List ℚ) (iMax : ℕ) :
    ∀ (fuel i : ℕ),
      (∀ p ∈ lmScan x iMax fuel i, i ≤ p.1 ∧ 1 ≤ p.1 ∧ p.1 ≤ p.2 ∧ p.2 + 1 ≤ iMax) ∧
      (lmScan x iMax fuel i).Pairwise (fun p q => p.2 + 2 ≤ q.1) := by
  intro fuel
  induction fuel with
  | zero => intro i; simp [lmScan]
  | succ fuel ih =>
    intro i
    simp only [lmScan]
    by_cases hi : i < iMax
    · rw [if_pos hi]
      by_cases hasc : jsLt (intGet x ((i : ℤ) - 1)) (intGet x i) = true
      · rw [if_pos hasc]
        set iAhead := plateauEnd x iMax (intGet x i) x.length (i + 1) with hA
        by_cases hdesc : jsLt (intGet x iAhead) (intGet x i) = true
        · rw [if_pos hdesc]
          have hpe := plateauEnd_bounds x iMax (intGet x i) x.length (i + 1) (by omega)
          have hi1 : 1 ≤ i := by
            obtain ⟨qa, qb, ha, hb, hlt⟩ := jsLt_some hasc
            have := (intGet_bounds ha).1
            omega
          have htail := ih (iAhead + 1)
          constructor
          · intro p hp
            rcases List.mem_cons.mp hp with hp | hp
            · subst hp
              refine ⟨le_refl _, hi1, by omega, by omega⟩
            · have := htail.1 p hp
              exact ⟨by omega, this.2⟩
          · refine List.Pairwise.cons ?_ htail.2
            intro q hq
            have := (htail.1 q hq).1
            simp only
            omega
        · rw [if_neg hdesc]
          have := ih (i + 1)
          exact ⟨fun p hp => ⟨by have := (this.1 p hp).1; omega, (this.1 p hp).2⟩, this.2⟩
      · rw [if_neg hasc]
        have := ih (i + 1)
        exact ⟨fun p hp => ⟨by have := (this.1 p hp).1; omega, (this.1 p hp).2⟩, this.2⟩
    · rw [if_neg hi]
      simp

theorem midpoints_sorted (x : List ℚ) :
    (localMaxima1D x).midpoints.Pairwise (· < ·) := by
  unfold localMaxima1D
  simp only
  rw [List.pairwise_map]
  have hs := lmScan_spec x (x.length - 1) (x.length + 1) 0
  refine hs.2.imp_of_mem ?_
  intro p q hp hq hpq
  have hp1 := (hs.1 p hp).2.2.1
  have hq1 := (hs.1 q hq).2.2.1
  have h1 : (p.1 : ℚ) ≤ (p.2 : ℚ) := by exact_mod_cast hp1
  have h2 : (q.1 : ℚ) ≤ (q.2 : ℚ) := by exact_mod_cast hq1
  have h3 : (p.2 : ℚ) + 2 ≤ (q.1 : ℚ) := by exact_mod_cast hpq
  linarith

theorem midpoints_interior (x : List ℚ) :
    ∀ m ∈ (localMaxima1D x).midpoints, 0 < m ∧ m < (x.length : ℚ) - 1 := by
  unfold localMaxima1D
  simp only
  intro m hm
  rw [List.mem_map] at hm
  obtain ⟨p, hp, hmp⟩ := hm
  have hs := lmScan_spec x (x.length - 1) (x.length + 1) 0
  obtain ⟨-, h1, h12, h2M⟩ := hs.1 p hp
  have hn : p.2 + 2 ≤ x.length := by omega
  subst hmp
  have c1 : (1 : ℚ) ≤ (p.1 : ℚ) := by exact_mod_cast h1
  have c2 : (p.1 : ℚ) ≤ (p.2 : ℚ) := by exact_mod_cast h12
  have c3 : (p.2 : ℚ) + 2 ≤ (x.length : ℚ) := by exact_mod_cast hn
  constructor <;> [linarith; linarith]

/-! ## findPeaks pipeline: inversion and sublist lemmas -/

theorem except_bind_ok {ε α β : Type} (a : α) (f : α → Except ε β) :
    (Except.ok a : Except ε α) >>= f = f a := rfl

theorem except_bind_error {ε α β : Type} (e : ε) (f : α → Except ε β) :
    (Except.error e : Except ε α) >>= f = .error e := rfl

theorem except_pure {ε α : Type} (a : α) : (pure a : Except ε α) = .ok a := rfl

theorem except_bind_ok_elim {ε α β : Type} {a : Except ε α} {f : α → Except ε β}
    {b : β} (h : (a >>= f) = .ok b) : ∃ v, a = .ok v ∧ f v = .ok b := by
  cases a with
  | error e => rw [except_bind_error] at h; cases h
  | ok v =>
    rw [except_bind_ok] at h
    exact ⟨v, rfl, h⟩

theorem findPeaks_ok_elim {x : List ℚ} {opts : FindPeaksOptions} {r : FindPeaksResult}
    (h : findPeaks x opts = .ok r) :
    ∃ s1 s3 s4 s5 : PState,
      heightStep x opts.height ((localMaxima1D x).midpoints, {}) = .ok s1 ∧
      promComputeStep x (opts.prominence.isSome || opts.width.isSome)
        (distanceStep x opts.distance s1) = .ok s3 ∧
      promFilterStep x opts.prominence s3 = .ok s4 ∧
      widthStep x opts.width s4 = .ok s5 ∧
      r = { peaks := s5.1, properties := s5.2 } := by
  unfold findPeaks at h
  by_cases hb : badDistance opts.distance = true
  · rw [if_pos hb] at h; cases h
  · rw [if_neg hb] at h
    unfold findPeaksBody at h
    cases h1 : heightStep x opts.height ((localMaxima1D x).midpoints, {}) with
    | error e => rw [h1, except_bind_error] at h; cases h
    | ok s1 =>
      rw [h1, except_bind_ok] at h
      cases h3 : promComputeStep x (opts.prominence.isSome || opts.width.isSome)
          (distanceStep x opts.distance s1) with
      | error e => rw [h3, except_bind_error] at h; cases h
      | ok s3 =>
        rw [h3, except_bind_ok] at h
        cases h4 : promFilterStep x opts.prominence s3 with
        | error e => rw [h4, except_bind_error] at h; cases h
        | ok s4 =>
          rw [h4, except_bind_ok] at h
          cases h5 : widthStep x opts.width s4 with
          | error e => rw [h5, except_bind_error] at h; cases h
          | ok s5 =>
            rw [h5, except_bind_ok, except_pure] at h
            injection h with h
            exact ⟨s1, s3, s4, s5, rfl, h3, h4, h5, h.symm⟩

theorem heightStep_ok_sublist {x : List ℚ} {ho : Option BoundArg} {s s2 : PState}
    (hs : heightStep x ho s = .ok s2) : s2.1.Sublist s.1 := by
  cases ho with
  | none =>
    simp only [heightStep] at hs
    injection hs with hs
    exact hs ▸ List.Sublist.refl _
  | some hArg =>
    simp only [heightStep] at hs
    cases hu : unpackConditionArgs hArg x s.1 with
    | error e => rw [hu, except_bind_error] at hs; cases hs
    | ok b =>
      rw [hu, except_bind_ok, except_pure] at hs
      injection hs with hs
      rw [← hs]
      exact maskFrom_sublist _ 0 _

theorem distanceStep_sublist (x : List ℚ) (d : Option ℚ) (s : PState) :
    (distanceStep x d s).1.Sublist s.1 := by
  cases d with
  | none => exact List.Sublist.refl _
  | some d => exact maskFrom_sublist _ 0 _

theorem promComputeStep_ok_peaks {x : List ℚ} {b : Bool} {s s2 : PState}
    (hs : promComputeStep x b s = .ok s2) : s2.1 = s.1 := by
  cases b with
  | false =>
    simp only [promComputeStep, Bool.false_eq_true, if_false] at hs
    injection hs with hs
    rw [← hs]
  | true =>
    simp only [promComputeStep, if_true] at hs
    cases hp : peakProminences x s.1 (-1) with
    | error e => rw [hp, except_bind_error] at hs; cases hs
    | ok res =>
      rw [hp, except_bind_ok, except_pure] at hs
      injection hs with hs
      rw [← hs]

theorem promFilterStep_ok_sublist {x : List ℚ} {po : Option BoundArg} {s s2 : PState}
    (hs : promFilterStep x po s = .ok s2) : s2.1.Sublist s.1 := by
  cases po with
  | none =>
    simp only [promFilterStep] at hs
    injection hs with hs
    exact hs ▸ List.Sublist.refl _
  | some pArg =>
    simp only [promFilterStep] at hs
    cases hu : unpackConditionArgs pArg x s.1 with
    | error e => rw [hu, except_bind_error] at hs; cases hs
    | ok b =>
      rw [hu, except_bind_ok] at hs
      cases hf : filterProps (selectByProperty (s.2.prominences.getD []) b.1 b.2)
          s.2 with
      | error e => rw [hf, except_bind_error] at hs; cases hs
      | ok pr2 =>
        rw [hf, except_bind_ok, except_pure] at hs
        injection hs with hs
        rw [← hs]
        exact maskFrom_sublist _ 0 _

theorem widthStep_ok_sublist {x : List ℚ} {wo : Option BoundArg} {s s2 : PState}
    (hs : widthStep x wo s = .ok s2) : s2.1.Sublist s.1 := by
  cases wo with
  | none =>
    simp only [widthStep] at hs
    injection hs with hs
    exact hs ▸ List.Sublist.refl _
  | some wArg =>
    simp only [widthStep] at hs
    cases hw : peakWidths x s.1 0 (s.2.prominences.getD []) (s.2.leftBases.getD [])
        (s.2.rightBases.getD []) with
    | error e => rw [hw, except_bind_error] at hs; cases hs
    | ok res =>
      rw [hw, except_bind_ok] at hs
      cases hu : unpackConditionArgs wArg x s.1 with
      | error e => rw [hu, except_bind_error] at hs; cases hs
      | ok b =>
        rw [hu, except_bind_ok] at hs
        cases hf : filterProps (selectByProperty (({ s.2 with
              widths := some res.1
              widthHeights := some res.2.1
              leftIps := some res.2.2.1
              rightIps := some res.2.2.2 : Properties }).widths.getD [])
            b.1 b.2) { s.2 with
              widths := some res.1
              widthHeights := some res.2.1
              leftIps := some res.2.2.1
              rightIps := some res.2.2.2 : Properties } with
        | error e => rw [hf, except_bind_error] at hs; cases hs
        | ok pr2 =>
          rw [hf, except_bind_ok, except_pure] at hs
          injection hs with hs
          rw [← hs]
          exact maskFrom_sublist _ 0 _

theorem findPeaks_peaks_sublist {x : List ℚ} {opts : FindPeaksOptions}
    {r : FindPeaksResult} (h : findPeaks x opts = .ok r) :
    r.peaks.Sublist (localMaxima1D x).midpoints := by
  obtain ⟨s1, s3, s4, s5, h1, h3, h4, h5, hr⟩ := findPeaks_ok_elim h
  have e1 := heightStep_ok_sublist h1
  have e2 := distanceStep_sublist x opts.distance s1
  have e3 := promComputeStep_ok_peaks h3
  have e4 := promFilterStep_ok_sublist h4
  have e5 := widthStep_ok_sublist h5
  rw [hr]
  exact (((e5.trans (e3 ▸ e4)).trans e2).trans e1)

/-- Claim C9 (amended: the indices are not always integers, see
`c9_noninteger_midpoint`): for every signal and every option set, the peaks
returned by `findPeaks` form a strictly ascending (hence duplicate-free)
sequence of indices, each lying strictly inside `(0, n-1)` — boundary
samples are never peaks.  Every filtering step only removes entries
(`jsFilterMask` produces a sublist), so the property established by
`localMaxima1D` is an invariant of the whole pipeline. -/
theorem findPeaks_peaks_sorted_interior {x : List ℚ} {opts : FindPeaksOptions}
    {r : FindPeaksResult} (h : findPeaks x opts = .ok r) :
    r.peaks.Pairwise (· < ·) ∧ ∀ p ∈ r.peaks, 0 < p ∧ p < (x.length : ℚ) - 1 := by
  have hsub := findPeaks_peaks_sublist h
  exact ⟨List.Pairwise.sublist hsub (midpoints_sorted x),
    fun p hp => midpoints_interior x p (hsub.mem hp)⟩

/-- Witness for `findPeaks_peaks_sorted_interior` at the signal
`[0,1,0,2,0,3,0]` with no options: peaks `[1,3,5]` are strictly ascending
and interior. -/
theorem findPeaks_peaks_sorted_interior_witness :
    findPeaks [0, 1, 0, 2, 0, 3, 0] {} =
      .ok { peaks := [1, 3, 5], properties := {} } ∧
    (([1, 3, 5] : List ℚ).Pairwise (· < ·) ∧
      ∀ p ∈ ([1, 3, 5] : List ℚ), 0 < p ∧ p < (([0, 1, 0, 2, 0, 3, 0] : List ℚ).length : ℚ) - 1) :=
  ⟨by with_unfolding_all decide,
    @findPeaks_peaks_sorted_interior [0, 1, 0, 2, 0, 3, 0] {}
      { peaks := [1, 3, 5], properties := {} } (by with_unfolding_all decide)⟩

/-! ## selectByPeakDistance: suppression-loop characterizations -/

theorem getD_lt {α : Type} {l : List α} {i : ℕ} (h : i < l.length) (d : α) :
    l.getD i d = l.get ⟨i, h⟩ := by
  rw [List.getD_eq_getElem?_getD, List.getElem?_eq_getElem h]
  rfl

theorem getD_ge {α : Type} {l : List α} {i : ℕ} (h : l.length ≤ i) (d : α) :
    l.getD i d = d := by
  rw [List.getD_eq_getElem?_getD, List.getElem?_eq_none h]
  rfl

theorem getD_set_eq {l : List Bool} {i m : ℕ} (a : Bool) :
    (l.set i a).getD m false = if i = m ∧ m < l.length then a else l.getD m false := by
  by_cases hm : m < l.length
  · have hm2 : m < (l.set i a).length := by simpa using hm
    rw [getD_lt hm2, getD_lt hm]
    simp only [List.get_eq_getElem, List.getElem_set]
    by_cases him : i = m <;> simp [him, hm]
  · have hm1 : l.length ≤ m := Nat.le_of_not_lt hm
    rw [getD_ge (by simpa using hm1), getD_ge hm1, if_neg (fun hc => hm hc.2)]

theorem suppressLeft_length (peaks : List ℚ) (D : ℤ) (pj : ℚ) :
    ∀ (fuel : ℕ) (k : ℤ) (keep : List Bool),
      (suppressLeft peaks D pj fuel k keep).length = keep.length := by
  intro fuel
  induction fuel with
  | zero => intro k keep; rfl
  | succ fuel ih =>
    intro k keep
    simp only [suppressLeft]
    split
    · rw [ih]; exact List.length_set ..
    · rfl

theorem suppressRight_length (peaks : List ℚ) (D : ℤ) (pj : ℚ) :
    ∀ (fuel k : ℕ) (keep : List Bool),
      (suppressRight peaks D pj fuel k keep).length = keep.length := by
  intro fuel
  induction fuel with
  | zero => intro k keep; rfl
  | succ fuel ih =>
    intro k keep
    simp only [suppressRight]
    split
    · rw [ih]; exact List.length_set ..
    · rfl

theorem suppressLeft_mono (peaks : List ℚ) (D : ℤ) (pj : ℚ) :
    ∀ (fuel : ℕ) (k : ℤ) (keep : List Bool) (m : ℕ),
      (suppressLeft peaks D pj fuel k keep).getD m false = true →
      keep.getD m false = true := by
  intro fuel
  induction fuel with
  | zero => intro k keep m h; exact h
  | succ fuel ih =>
    intro k keep m h
    simp only [suppressLeft] at h
    split at h
    · have := ih (k - 1) (keep.set k.toNat false) m h
      rw [getD_set_eq] at this
      split at this
      · cases this
      · exact this
    · exact h

theorem suppressRight_mono (peaks : List ℚ) (D : ℤ) (pj : ℚ) :
    ∀ (fuel k : ℕ) (keep : List Bool) (m : ℕ),
      (suppressRight peaks D pj fuel k keep).getD m false = true →
      keep.getD m false = true := by
  intro fuel
  induction fuel with
  | zero => intro k keep m h; exact h
  | succ fuel ih =>
    intro k keep m h
    simp only [suppressRight] at h
    split at h
    · have := ih (k + 1) (keep.set k false) m h
      rw [getD_set_eq] at this
      split at this
      · cases this
      · exact this
    · exact h

theorem suppressLeft_getD (peaks : List ℚ) (D : ℤ) (pj : ℚ)
    (hmono : ∀ a b : ℕ, a ≤ b → b < peaks.length →
      peaks.getD a 0 ≤ peaks.getD b 0) :
    ∀ (fuel : ℕ) (k : ℤ) (keep : List Bool), k < (peaks.length : ℤ) →
      keep.length = peaks.length → (k + 1).toNat < fuel →
      ∀ m : ℕ, (suppressLeft peaks D pj fuel k keep).getD m false =
        if (m : ℤ) ≤ k ∧ pj - peaks.getD m 0 < (D : ℚ) then false
        else keep.getD m false := by
  intro fuel
  induction fuel with
  | zero => intro k keep hk hkl hfuel; omega
  | succ fuel ih =>
    intro k keep hk hkl hfuel m
    simp only [suppressLeft]
    by_cases hg : 0 ≤ k ∧ pj - peaks.getD k.toNat 0 < (D : ℚ)
    · rw [if_pos hg]
      rw [ih (k - 1) (keep.set k.toNat false) (by omega) (by simpa using hkl) (by omega)]
      by_cases hc : (m : ℤ) ≤ k ∧ pj - peaks.getD m 0 < (D : ℚ)
      · rw [if_pos hc]
        by_cases hmk : (m : ℤ) ≤ k - 1
        · rw [if_pos ⟨hmk, hc.2⟩]
        · have hmke : m = k.toNat := by omega
          rw [if_neg (fun hcc => hmk hcc.1), getD_set_eq,
            if_pos ⟨hmke.symm, by omega⟩]
      · rw [if_neg hc]
        rw [if_neg (fun hcc => hc ⟨by omega, hcc.2⟩), getD_set_eq, if_neg ?_]
        intro hcc
        exact hc ⟨by omega, hcc.1 ▸ hg.2⟩
    · rw [if_neg hg]
      by_cases hc : (m : ℤ) ≤ k ∧ pj - peaks.getD m 0 < (D : ℚ)
      · exfalso
        rcases hc with ⟨hmk, hnear⟩
        have h0k : 0 ≤ k := le_trans (Int.ofNat_nonneg m) hmk
        have hnk : ¬ pj - peaks.getD k.toNat 0 < (D : ℚ) := fun hh => hg ⟨h0k, hh⟩
        have hle : peaks.getD m 0 ≤ peaks.getD k.toNat 0 :=
          hmono m k.toNat (by omega) (by omega)
        exact hnk (by linarith)
      · rw [if_neg hc]

theorem suppressRight_getD (peaks : List ℚ) (D : ℤ) (pj : ℚ)
    (hmono : ∀ a b : ℕ, a ≤ b → b < peaks.length →
      peaks.getD a 0 ≤ peaks.getD b 0) :
    ∀ (fuel k : ℕ) (keep : List Bool),
      keep.length = peaks.length → peaks.length - k < fuel →
      ∀ m : ℕ, (suppressRight peaks D pj fuel k keep).getD m false =
        if k ≤ m ∧ m < peaks.length ∧ peaks.getD m 0 - pj < (D : ℚ) then false
        else keep.getD m false := by
  intro fuel
  induction fuel with
  | zero => intro k keep hkl hfuel; omega
  | succ fuel ih =>
    intro k keep hkl hfuel m
    simp only [suppressRight]
    by_cases hg : k < peaks.length ∧ peaks.getD k 0 - pj < (D : ℚ)
    · rw [if_pos hg]
      rw [ih (k + 1) (keep.set k false) (by simpa using hkl) (by omega)]
      by_cases hc : k ≤ m ∧ m < peaks.length ∧ peaks.getD m 0 - pj < (D : ℚ)
      · rw [if_pos hc]
        by_cases hmk : k + 1 ≤ m
        · rw [if_pos ⟨hmk, hc.2⟩]
        · have hmke : m = k := by omega
          rw [if_neg (fun hcc => hmk hcc.1), getD_set_eq,
            if_pos ⟨hmke.symm, by omega⟩]
      · rw [if_neg hc]
        rw [if_neg (fun hcc => hc ⟨by omega, hcc.2⟩), getD_set_eq, if_neg ?_]
        intro hcc
        exact hc ⟨by omega, hcc.1 ▸ ⟨hg.1, hg.2⟩⟩
    · rw [if_neg hg]
      by_cases hc : k ≤ m ∧ m < peaks.length ∧ peaks.getD m 0 - pj < (D : ℚ)
      · exfalso
        rcases hc with ⟨hkm, hmn, hnear⟩
        have hkn : k < peaks.length := by omega
        have hnk : ¬ peaks.getD k 0 - pj < (D : ℚ) := fun hh => hg ⟨hkn, hh⟩
        have hle : peaks.getD k 0 ≤ peaks.getD m 0 := hmono k m hkm hmn
        exact hnk (by linarith)
      · rw [if_neg hc]

theorem distStep_length (peaks : List ℚ) (D : ℤ) (ptp : List ℕ) (keep : List Bool)
    (i : ℤ) : (distStep peaks D ptp keep i).length = keep.length := by
  unfold distStep
  split
  · split
    · rfl
    · rw [suppressRight_length, suppressLeft_length]
  · rfl

theorem distStep_mono (peaks : List ℚ) (D : ℤ) (ptp : List ℕ) (keep : List Bool)
    (i : ℤ) (m : ℕ) (h : (distStep peaks D ptp keep i).getD m false = true) :
    keep.getD m false = true := by
  unfold distStep at h
  split at h
  · split at h
    · exact h
    · exact suppressLeft_mono _ _ _ _ _ _ _ (suppressRight_mono _ _ _ _ _ _ _ h)
  · exact h

/-- Characterization of one executed outer-loop iteration: when the peak at
sorted position `i` is still kept, the iteration clears exactly the other
peaks strictly closer than `D` samples to it. -/
theorem distStep_getD (peaks : List ℚ) (D : ℤ) (ptp : List ℕ)
    (hmono : ∀ a b : ℕ, a ≤ b → b < peaks.length →
      peaks.getD a 0 ≤ peaks.getD b 0)
    {keep : List Bool} {i : ℤ} (hkl : keep.length = peaks.length)
    (h0 : 0 ≤ i) (hi : i.toNat < ptp.length) {j : ℕ}
    (hj : ptp.get ⟨i.toNat, hi⟩ = j) (hjn : j < peaks.length)
    (hkj : keep.getD j false = true) :
    ∀ m, (distStep peaks D ptp keep i).getD m false =
      if m ≠ j ∧ m < peaks.length ∧ |peaks.getD m 0 - peaks.getD j 0| < (D : ℚ) then
        false
      else keep.getD m false := by
  intro m
  unfold distStep
  rw [dif_pos ⟨h0, hi⟩]
  simp only [hj]
  rw [if_neg (by rw [hkj]; exact fun hc => by cases hc)]
  have hL := suppressLeft_getD peaks D (peaks.getD j 0) hmono (peaks.length + 1)
    ((j : ℤ) - 1) keep (by omega) hkl (by omega)
  have hkl1 : (suppressLeft peaks D (peaks.getD j 0) (peaks.length + 1)
      ((j : ℤ) - 1) keep).length = peaks.length := by
    rw [suppressLeft_length]; exact hkl
  have hR := suppressRight_getD peaks D (peaks.getD j 0) hmono (peaks.length + 1)
    (j + 1) _ hkl1 (by omega)
  rw [hR m, hL m]
  by_cases hmn : m < peaks.length
  · rcases lt_trichotomy m j with hmj | hmj | hmj
    · have hmle : peaks.getD m 0 ≤ peaks.getD j 0 := hmono m j (by omega) hjn
      have habs : |peaks.getD m 0 - peaks.getD j 0| =
          peaks.getD j 0 - peaks.getD m 0 := by
        rw [abs_sub_comm]
        exact abs_of_nonneg (by linarith)
      rw [if_neg (fun hc => absurd hc.1 (by omega))]
      by_cases hnear : peaks.getD j 0 - peaks.getD m 0 < (D : ℚ)
      · rw [if_pos ⟨by omega, hnear⟩,
          if_pos ⟨by omega, hmn, by rw [habs]; exact hnear⟩]
      · rw [if_neg (fun hc => hnear hc.2),
          if_neg (fun hc => hnear (by rw [← habs]; exact hc.2.2))]
    · subst hmj
      rw [if_neg (fun hc => absurd hc.1 (by omega)),
        if_neg (fun hc => absurd hc.1 (by omega)),
        if_neg (fun hc => hc.1 rfl)]
    · have hjle : peaks.getD j 0 ≤ peaks.getD m 0 := hmono j m (by omega) hmn
      have habs : |peaks.getD m 0 - peaks.getD j 0| =
          peaks.getD m 0 - peaks.getD j 0 := abs_of_nonneg (by linarith)
      by_cases hnear : peaks.getD m 0 - peaks.getD j 0 < (D : ℚ)
      · rw [if_pos ⟨by omega, hmn, hnear⟩,
          if_pos ⟨by omega, hmn, by rw [habs]; exact hnear⟩]
      · rw [if_neg (fun hc => hnear hc.2.2),
          if_neg (fun hc => absurd hc.1 (by omega)),
          if_neg (fun hc => hnear (by rw [← habs]; exact hc.2.2))]
  · rw [if_neg (fun hc => absurd hc.2.1 (by omega)),
      if_neg (fun hc => absurd hc.1 (by omega)),
      if_neg (fun hc => absurd hc.2.1 (by omega))]

theorem distFold_length (peaks : List ℚ) (D : ℤ) (ptp : List ℕ) :
    ∀ (il : List ℤ) (keep : List Bool),
      (il.foldl (distStep peaks D ptp) keep).length = keep.length := by
  intro il
  induction il with
  | nil => intro keep; rfl
  | cons i il ih =>
    intro keep
    rw [List.foldl_cons, ih, distStep_length]

theorem distFold_mono (peaks : List ℚ) (D : ℤ) (ptp : List ℕ) :
    ∀ (il : List ℤ) (keep : List Bool) (m : ℕ),
      (il.foldl (distStep peaks D ptp) keep).getD m false = true →
      keep.getD m false = true := by
  intro il
  induction il with
  | nil => intro keep m h; exact h
  | cons i il ih =>
    intro keep m h
    rw [List.foldl_cons] at h
    exact distStep_mono _ _ _ _ _ _ (ih _ m h)

/-- Core suppression property of the outer fold: if the peak at a sorted
position that the fold processes survives to the end, then every other
peak strictly closer than `D` samples to it ends up suppressed. -/
theorem distFold_kills (peaks : List ℚ) (D : ℤ) (ptp : List ℕ)
    (hmono : ∀ a b : ℕ, a ≤ b → b < peaks.length →
      peaks.getD a 0 ≤ peaks.getD b 0)
    (hpe : ∀ j ∈ ptp, j < peaks.length) :
    ∀ (il : List ℤ) (keep : List Bool), keep.length = peaks.length →
      ∀ iP ∈ il, ∀ (h0 : 0 ≤ iP) (hv : iP.toNat < ptp.length) (a : ℕ),
        ptp.get ⟨iP.toNat, hv⟩ = a →
        (il.foldl (distStep peaks D ptp) keep).getD a false = true →
        ∀ b, b ≠ a → b < peaks.length →
          |peaks.getD b 0 - peaks.getD a 0| < (D : ℚ) →
          (il.foldl (distStep peaks D ptp) keep).getD b false = false := by
  intro il
  induction il with
  | nil => intro keep hkl iP hiP; cases hiP
  | cons i0 il ih =>
    intro keep hkl iP hiP h0 hv a ha hsurv b hba hbn hnear
    rw [List.foldl_cons] at hsurv ⊢
    rcases List.mem_cons.mp hiP with hiP | hiP
    · subst hiP
      have hkeepa : keep.getD a false = true :=
        distStep_mono _ _ _ _ _ _ (distFold_mono _ _ _ il _ a hsurv)
      have hja : a < peaks.length := hpe a (ha ▸ List.get_mem ptp _ hv)
      have hstep := distStep_getD peaks D ptp hmono hkl h0 hv ha hja hkeepa b
      rw [if_pos ⟨hba, hbn, hnear⟩] at hstep
      cases hfin : (il.foldl (distStep peaks D ptp) (distStep peaks D ptp keep iP)).getD
          b false
      · rfl
      · exfalso
        have := distFold_mono peaks D ptp il _ b hfin
        rw [hstep] at this
        cases this
    · exact ih (distStep peaks D ptp keep i0)
        (by rw [distStep_length]; exact hkl) iP hiP h0 hv a ha hsurv b hba hbn hnear

theorem mem_distIndices {n c : ℕ} (hc : c + 1 < n) : (c : ℤ) ∈ distIndices n := by
  unfold distIndices
  simp only [List.mem_map, List.mem_reverse, List.mem_range]
  exact ⟨c + 1, hc, by push_cast; ring⟩

theorem priorityToPosition_length (priority : List JSVal) :
    (priorityToPosition priority).length = priority.length := by
  unfold priorityToPosition
  rw [List.length_map, List.length_insertionSort, List.length_zip, List.length_range]
  exact Nat.min_self _

theorem priorityToPosition_perm (priority : List JSVal) :
    (priorityToPosition priority).Perm (List.range priority.length) := by
  unfold priorityToPosition
  have hp := (List.perm_insertionSort (fun a b : JSVal × ℕ => priLe a.1 b.1 = true)
    (priority.zip (List.range priority.length))).map Prod.snd
  rwa [List.map_snd_zip _ _ (by simp)] at hp

theorem priorityToPosition_mem_lt {priority : List JSVal} {j : ℕ}
    (hj : j ∈ priorityToPosition priority) : j < priority.length := by
  have := (priorityToPosition_perm priority).mem_iff.mp hj
  simpa using this

/-- Survivors of `selectByPeakDistance` on a strictly sorted peak array are
pairwise at least `⌈d⌉` samples apart.  (This holds despite the outer loop
skipping the top-priority position: of any two survivors, at least one sits
at a processed position, and had it been within `⌈d⌉` of the other it would
have suppressed it.) -/
theorem selectByPeakDistance_survivors (peaks : List ℚ) (priority : List JSVal)
    (d : ℚ) (hsorted : peaks.Pairwise (· < ·))
    (hlen : priority.length = peaks.length) :
    ∀ (a b : ℕ) (ha : a < peaks.length) (hb : b < peaks.length), a ≠ b →
      (selectByPeakDistance peaks priority d).getD a false = true →
      (selectByPeakDistance peaks priority d).getD b false = true →
      (⌈d⌉ : ℚ) ≤ |peaks.get ⟨a, ha⟩ - peaks.get ⟨b, hb⟩| := by
  intro a b ha hb hab hka hkb
  by_contra hcon
  push_neg at hcon
  have hmono : ∀ u v : ℕ, u ≤ v → v < peaks.length →
      peaks.getD u 0 ≤ peaks.getD v 0 := by
    intro u v huv hv
    rcases Nat.eq_or_lt_of_le huv with he | hlt
    · subst he; exact le_refl _
    · rw [getD_lt (by omega), getD_lt hv]
      exact le_of_lt (List.pairwise_iff_get.mp hsorted ⟨u, by omega⟩ ⟨v, hv⟩ hlt)
  have hpe : ∀ j ∈ priorityToPosition priority, j < peaks.length := fun j hj =>
    hlen ▸ priorityToPosition_mem_lt hj
  have hptl : (priorityToPosition priority).length = peaks.length := by
    rw [priorityToPosition_length]; exact hlen
  -- locate the sorted positions of a and b
  have hmem : ∀ c : ℕ, c < peaks.length → ∃ ic : Fin (priorityToPosition priority).length,
      (priorityToPosition priority).get ic = c := by
    intro c hc
    have : c ∈ priorityToPosition priority := by
      rw [(priorityToPosition_perm priority).mem_iff, List.mem_range, hlen]
      exact hc
    exact List.mem_iff_get.mp this
  obtain ⟨ia, hia⟩ := hmem a ha
  obtain ⟨ib, hib⟩ := hmem b hb
  have hiab : (ia : ℕ) ≠ (ib : ℕ) := by
    intro he
    apply hab
    rw [← hia, ← hib]
    congr 1
    exact Fin.ext he
  have habs : |peaks.getD b 0 - peaks.getD a 0| < ((⌈d⌉ : ℤ) : ℚ) := by
    rw [getD_lt ha, getD_lt hb, abs_sub_comm]
    exact hcon
  have habs2 : |peaks.getD a 0 - peaks.getD b 0| < ((⌈d⌉ : ℤ) : ℚ) := by
    rw [abs_sub_comm]; exact habs
  have hkill := distFold_kills peaks ⌈d⌉ (priorityToPosition priority) hmono hpe
    (distIndices peaks.length)
    (List.replicate peaks.length true) (by simp)
  rcases Nat.lt_or_ge (ia : ℕ) (peaks.length - 1) with hia2 | hia2
  · -- position of a is processed: a kills b
    have h0 : (0 : ℤ) ≤ ((ia : ℕ) : ℤ) := by omega
    have hv : ((ia : ℕ) : ℤ).toNat < (priorityToPosition priority).length := by
      simpa using ia.isLt
    have hget : (priorityToPosition priority).get ⟨((ia : ℕ) : ℤ).toNat, hv⟩ = a := by
      have : (⟨((ia : ℕ) : ℤ).toNat, hv⟩ : Fin (priorityToPosition priority).length) = ia := by
        apply Fin.ext; simp
      rw [this]; exact hia
    unfold selectByPeakDistance at hka hkb
    have := hkill ((ia : ℕ) : ℤ) (mem_distIndices (by omega)) h0 hv a hget hka b
      hab.symm hb habs
    exact Bool.noConfusion (hkb.symm.trans this)
  · -- position of a is the skipped top: then b is processed and kills a
    have hib2 : (ib : ℕ) < peaks.length - 1 := by
      have h1 : (ia : ℕ) < (priorityToPosition priority).length := ia.isLt
      have h2 : (ib : ℕ) < (priorityToPosition priority).length := ib.isLt
      omega
    have h0 : (0 : ℤ) ≤ ((ib : ℕ) : ℤ) := by omega
    have hv : ((ib : ℕ) : ℤ).toNat < (priorityToPosition priority).length := by
      simpa using ib.isLt
    have hget : (priorityToPosition priority).get ⟨((ib : ℕ) : ℤ).toNat, hv⟩ = b := by
      have : (⟨((ib : ℕ) : ℤ).toNat, hv⟩ : Fin (priorityToPosition priority).length) = ib := by
        apply Fin.ext; simp
      rw [this]; exact hib
    unfold selectByPeakDistance at hka hkb
    have := hkill ((ib : ℕ) : ℤ) (mem_distIndices (by omega)) h0 hv b hget hkb a
      hab ha habs2
    exact Bool.noConfusion (hka.symm.trans this)

/-- Claim C4: for every signal and every option set supplying
`distance = d`, every pair of distinct peak indices returned by `findPeaks`
differs by at least `⌈d⌉`.  (If `d < 1` the call errors, so the hypothesis
`findPeaks x opts = .ok r` is never satisfied there.) -/
theorem findPeaks_distance_spacing {x : List ℚ} {opts : FindPeaksOptions} {d : ℚ}
    {r : FindPeaksResult} (hd : opts.distance = some d)
    (h : findPeaks x opts = .ok r) :
    ∀ p ∈ r.peaks, ∀ q ∈ r.peaks, p ≠ q → (⌈d⌉ : ℚ) ≤ |p - q| := by
  obtain ⟨s1, s3, s4, s5, h1, h3, h4, h5, hr⟩ := findPeaks_ok_elim h
  have hs1 : s1.1.Pairwise (· < ·) :=
    List.Pairwise.sublist (heightStep_ok_sublist h1) (midpoints_sorted x)
  have hs2 : (distanceStep x opts.distance s1).1.Pairwise
      (fun p q => (⌈d⌉ : ℚ) ≤ |p - q|) := by
    rw [hd]
    simp only [distanceStep, jsFilterMask]
    refine pairwise_maskFrom ?_
    intro j k hj hk hjk hkeepj hkeepk
    exact selectByPeakDistance_survivors s1.1 (s1.1.map fun i => qGet x i) d hs1
      (by rw [List.length_map]) j k hj hk (Nat.ne_of_lt hjk)
      (by simpa using hkeepj) (by simpa using hkeepk)
  have e3 := promComputeStep_ok_peaks h3
  have e4 := promFilterStep_ok_sublist h4
  have e5 := widthStep_ok_sublist h5
  have hs5 : s5.1.Pairwise (fun p q => (⌈d⌉ : ℚ) ≤ |p - q|) :=
    List.Pairwise.sublist (e5.trans (e3 ▸ e4)) hs2
  have hsym : Symmetric (fun p q : ℚ => (⌈d⌉ : ℚ) ≤ |p - q|) := by
    intro p q hpq
    rwa [abs_sub_comm]
  rw [hr]
  exact fun p hp q hq hpq => hs5.forall hsym hp hq hpq

/-- Witness for `findPeaks_distance_spacing` on `[0,3,0,1,0]` with
`distance = 2`: the surviving peaks `1` and `3` are `2 = ⌈2⌉` apart. -/
theorem findPeaks_distance_spacing_witness :
    ({ distance := some 2 : FindPeaksOptions }).distance = some 2 ∧
    findPeaks [0, 3, 0, 1, 0] { distance := some 2 } =
      .ok { peaks := [1, 3], properties := { peakHeights := some none } } ∧
    (∀ p ∈ ([1, 3] : List ℚ), ∀ q ∈ ([1, 3] : List ℚ), p ≠ q →
      ((⌈(2 : ℚ)⌉ : ℚ) ≤ |p - q|)) :=
  ⟨rfl, by with_unfolding_all decide,
    @findPeaks_distance_spacing [0, 3, 0, 1, 0] { distance := some 2 } 2
      { peaks := [1, 3], properties := { peakHeights := some none } } rfl
      (by with_unfolding_all decide)⟩

/-! ## Equivalence of the distance filter with its (amended) conceptual form -/

theorem specSuppressFrom_length (peaks : List ℚ) (D : ℤ) (j : ℕ) :
    ∀ (k : ℕ) (keep : List Bool),
      (specSuppressFrom peaks D j k keep).length = keep.length := by
  intro k keep
  induction keep generalizing k with
  | nil => rfl
  | cons b keep ih => simp [specSuppressFrom, ih]

theorem specSuppressFrom_getD (peaks : List ℚ) (D : ℤ) (j : ℕ) :
    ∀ (keep : List Bool) (k m : ℕ),
      (specSuppressFrom peaks D j k keep).getD m false =
        if m < keep.length ∧ k + m ≠ j ∧
            |peaks.getD (k + m) 0 - peaks.getD j 0| < (D : ℚ) then false
        else keep.getD m false := by
  intro keep
  induction keep with
  | nil =>
    intro k m
    rw [if_neg (fun hc => by simpa using hc.1)]
    rfl
  | cons b keep ih =>
    intro k m
    cases m with
    | zero =>
      simp only [specSuppressFrom, List.getD_cons_zero, Nat.add_zero]
      by_cases hc : k ≠ j ∧ |peaks.getD k 0 - peaks.getD j 0| < (D : ℚ)
      · rw [if_pos hc, if_pos ⟨Nat.succ_pos _, hc.1, hc.2⟩]
      · rw [if_neg hc, if_neg (fun hcc => hc ⟨hcc.2.1, hcc.2.2⟩)]
    | succ m =>
      simp only [specSuppressFrom, List.getD_cons_succ]
      rw [ih (k + 1) m, show k + (m + 1) = k + 1 + m from by omega]
      simp only [List.length_cons]
      by_cases hc : m < keep.length ∧ k + 1 + m ≠ j ∧
          |peaks.getD (k + 1 + m) 0 - peaks.getD j 0| < (D : ℚ)
      · rw [if_pos hc, if_pos ⟨by omega, hc.2.1, hc.2.2⟩]
      · rw [if_neg hc, if_neg fun hcc => hc ⟨by omega, hcc.2.1, hcc.2.2⟩]

theorem specDistStep_length (peaks : List ℚ) (D : ℤ) (ptp : List ℕ)
    (keep : List Bool) (i : ℕ) :
    (specDistStep peaks D ptp keep i).length = keep.length := by
  unfold specDistStep
  split
  · exact specSuppressFrom_length peaks D _ 0 keep
  · rfl

theorem bool_list_ext : ∀ (l₁ l₂ : List Bool), l₁.length = l₂.length →
    (∀ m, l₁.getD m false = l₂.getD m false) → l₁ = l₂ := by
  intro l₁
  induction l₁ with
  | nil =>
    intro l₂ hl hm
    cases l₂ with
    | nil => rfl
    | cons b l₂ => simp at hl
  | cons a l₁ ih =>
    intro l₂ hl hm
    cases l₂ with
    | nil => simp at hl
    | cons b l₂ =>
      have h0 := hm 0
      simp only [List.getD_cons_zero] at h0
      subst h0
      rw [ih l₂ (by simpa using hl) fun m => by simpa using hm (m + 1)]

/-- One executed outer-loop iteration of the JS code coincides with the
conceptual suppression round of the amended claim: the peak at sorted
position `i` (if not yet suppressed) clears exactly the other peaks
strictly closer than `D` samples to it. -/
theorem distStep_eq_spec (peaks : List ℚ) (D : ℤ) (ptp : List ℕ)
    (hmono : ∀ a b : ℕ, a ≤ b → b < peaks.length →
      peaks.getD a 0 ≤ peaks.getD b 0)
    (hpe : ∀ j ∈ ptp, j < peaks.length)
    {keep : List Bool} (hkl : keep.length = peaks.length)
    {i : ℕ} (hi : i < ptp.length) :
    distStep peaks D ptp keep (i : ℤ) = specDistStep peaks D ptp keep i := by
  have hv : ((i : ℤ)).toNat < ptp.length := by simpa using hi
  have hj : ptp.getD i 0 = ptp.get ⟨((i : ℤ)).toNat, hv⟩ := getD_lt hv 0
  by_cases hkj : keep.getD (ptp.get ⟨((i : ℤ)).toNat, hv⟩) false = true
  · have hjn : ptp.get ⟨((i : ℤ)).toNat, hv⟩ < peaks.length :=
      hpe _ (List.get_mem ptp _ hv)
    refine bool_list_ext _ _ ?_ ?_
    · rw [distStep_length, specDistStep_length]
    · intro m
      rw [distStep_getD peaks D ptp hmono hkl (by omega) hv rfl hjn hkj m]
      unfold specDistStep
      rw [hj, if_pos hkj]
      unfold specSuppress
      rw [specSuppressFrom_getD peaks D _ keep 0 m]
      simp only [Nat.zero_add]
      by_cases hc1 : m ≠ ptp.get ⟨((i : ℤ)).toNat, hv⟩
      · by_cases hc2 : m < peaks.length
        · by_cases hc3 : |peaks.getD m 0 -
              peaks.getD (ptp.get ⟨((i : ℤ)).toNat, hv⟩) 0| < (D : ℚ)
          · rw [if_pos ⟨hc1, hc2, hc3⟩, if_pos ⟨by omega, hc1, hc3⟩]
          · rw [if_neg (fun hc => hc3 hc.2.2), if_neg (fun hc => hc3 hc.2.2)]
        · rw [if_neg (fun hc => hc2 hc.2.1), if_neg (fun hc => hc2 (by omega))]
      · rw [if_neg (fun hc => hc1 hc.1), if_neg (fun hc => hc1 hc.2.1)]
  · have hkj2 : keep.getD (ptp.get ⟨((i : ℤ)).toNat, hv⟩) false = false := by
      cases h : keep.getD (ptp.get ⟨((i : ℤ)).toNat, hv⟩) false
      · rfl
      · exact absurd h hkj
    unfold distStep specDistStep
    rw [dif_pos ⟨by omega, hv⟩, hj, if_pos hkj2, hkj2, if_neg Bool.false_ne_true]

theorem distStep_neg_one (peaks : List ℚ) (D : ℤ) (ptp : List ℕ)
    (keep : List Bool) : distStep peaks D ptp keep (-1) = keep := by
  unfold distStep
  rw [dif_neg (fun hc => absurd hc.1 (by norm_num))]

theorem distFold_eq_spec (peaks : List ℚ) (D : ℤ) (ptp : List ℕ)
    (hmono : ∀ a b : ℕ, a ≤ b → b < peaks.length →
      peaks.getD a 0 ≤ peaks.getD b 0)
    (hpe : ∀ j ∈ ptp, j < peaks.length) :
    ∀ (il : List ℕ), (∀ i ∈ il, i < ptp.length) →
      ∀ (keep : List Bool), keep.length = peaks.length →
        (il.map fun k : ℕ => (k : ℤ)).foldl (distStep peaks D ptp) keep =
        il.foldl (specDistStep peaks D ptp) keep := by
  intro il
  induction il with
  | nil => intro _ keep _; rfl
  | cons i il ih =>
    intro hin keep hkl
    simp only [List.map_cons, List.foldl_cons]
    rw [distStep_eq_spec peaks D ptp hmono hpe hkl (hin i (List.mem_cons_self i il))]
    exact ih (fun i2 hi2 => hin i2 (List.mem_cons_of_mem i hi2)) _
      (by rw [specDistStep_length]; exact hkl)

theorem distIndices_eq (n : ℕ) (hn : n ≠ 0) :
    distIndices n = ((List.range (n - 1)).reverse.map fun k : ℕ => (k : ℤ)) ++
      [(-1 : ℤ)] := by
  unfold distIndices
  obtain ⟨m, rfl⟩ : ∃ m, n = m + 1 := ⟨n - 1, by omega⟩
  rw [List.range_succ_eq_map, List.reverse_cons, List.map_append, List.map_reverse,
    List.map_reverse, List.map_map]
  simp only [Nat.add_sub_cancel, List.map_cons, List.map_nil]
  congr 2
  refine List.map_congr_left fun k hk => ?_
  simp only [Function.comp_apply]
  push_cast
  ring

/-- Claim C3 (amended): on a strictly sorted peak array, the distance
filter of the code equals the conceptual filter
`selectByPeakDistanceSpec` that sorts the positions by ascending priority
(ties stable by array position) and processes them from the
SECOND-highest priority down to the lowest; each processed
not-yet-suppressed peak suppresses every neighboring peak within fewer
than `⌈d⌉` samples in both directions.  The single highest-priority
position is skipped by the descending pass (the loop starts at
`peaksSize - 2` and its final `-1` iteration is a no-op), so the
highest-priority peak of a cluster can itself be suppressed by a
lower-priority neighbor — see `c3_highest_priority_suppressed` for a
concrete instance refuting the original claim. -/
theorem selectByPeakDistance_skips_top (peaks : List ℚ) (priority : List JSVal)
    (d : ℚ) (hsorted : peaks.Pairwise (· < ·))
    (hlen : priority.length = peaks.length) :
    selectByPeakDistance peaks priority d =
      selectByPeakDistanceSpec peaks priority d := by
  have hmono : ∀ u v : ℕ, u ≤ v → v < peaks.length →
      peaks.getD u 0 ≤ peaks.getD v 0 := by
    intro u v huv hv
    rcases Nat.eq_or_lt_of_le huv with he | hlt
    · subst he; exact le_refl _
    · rw [getD_lt (by omega), getD_lt hv]
      exact le_of_lt (List.pairwise_iff_get.mp hsorted ⟨u, by omega⟩ ⟨v, hv⟩ hlt)
  have hpe : ∀ j ∈ priorityToPosition priority, j < peaks.length := fun j hj =>
    hlen ▸ priorityToPosition_mem_lt hj
  have hptl : (priorityToPosition priority).length = peaks.length := by
    rw [priorityToPosition_length]; exact hlen
  by_cases hn : peaks.length = 0
  · unfold selectByPeakDistance selectByPeakDistanceSpec distIndices
    rw [hn]
    rfl
  · unfold selectByPeakDistance selectByPeakDistanceSpec
    rw [distIndices_eq peaks.length hn, List.foldl_append]
    simp only [List.foldl_cons, List.foldl_nil]
    rw [distStep_neg_one]
    rw [distFold_eq_spec peaks ⌈d⌉ (priorityToPosition priority) hmono hpe
      (List.range (peaks.length - 1)).reverse
      (fun i hi => by
        rw [hptl]
        rw [List.mem_reverse, List.mem_range] at hi
        omega)
      (List.replicate peaks.length true) (by simp)]

/-- Witness for `selectByPeakDistance_skips_top`: two peaks at indices
`1 < 2`, priorities `0 < 1`, minimum distance `2`. -/
theorem selectByPeakDistance_skips_top_witness :
    ([1, 2] : List ℚ).Pairwise (· < ·) ∧
    ([some 0, some 1] : List JSVal).length = ([1, 2] : List ℚ).length ∧
    selectByPeakDistance [1, 2] [some 0, some 1] 2 =
      selectByPeakDistanceSpec [1, 2] [some 0, some 1] 2 :=
  ⟨by with_unfolding_all decide, rfl,
    selectByPeakDistance_skips_top [1, 2] [some 0, some 1] 2
      (by with_unfolding_all decide) rfl⟩

/-! ## peakProminences: walk invariants -/

theorem jsLe_some {a b : JSVal} (h : jsLe a b = true) :
    ∃ qa qb, a = some qa ∧ b = some qb ∧ qa ≤ qb := by
  cases a with
  | none => simp [jsLe] at h
  | some qa =>
    cases b with
    | none => simp [jsLe] at h
    | some qb => exact ⟨qa, qb, rfl, rfl, by simpa [jsLe] using h⟩

theorem qGet_natCast {x : List ℚ} {k : ℕ} (hk : k < x.length) :
    qGet x (k : ℚ) = some (x.getD k 0) := by
  unfold qGet intGet
  rw [if_pos (Rat.den_natCast k)]
  have hnum : ((k : ℚ)).num = (k : ℤ) := Rat.num_natCast k
  rw [hnum]
  rw [dif_pos ⟨Int.ofNat_nonneg k, by simpa using hk⟩]
  rw [getD_lt hk]
  congr 1

/-- The left base walk keeps its base index between `iMin` and the maximum
of the current index and the incoming base (any fuel). -/
theorem promLeftWalk_base_bounds (x : List ℚ) (xPeak : JSVal) (iMin : ℚ) :
    ∀ (fuel : ℕ) (i lBase : ℚ) (lMin : JSVal),
      (promLeftWalk x xPeak iMin fuel i lMin lBase).2 ≤ max i lBase ∧
      (iMin ≤ (promLeftWalk x xPeak iMin fuel i lMin lBase).2 ∨
        (promLeftWalk x xPeak iMin fuel i lMin lBase).2 = lBase) := by
  intro fuel
  induction fuel with
  | zero => intro i lBase lMin; exact ⟨le_max_right _ _, Or.inr rfl⟩
  | succ fuel ih =>
    intro i lBase lMin
    simp only [promLeftWalk]
    by_cases hg : iMin ≤ i ∧ jsLe (qGet x i) xPeak = true
    · rw [if_pos hg]
      by_cases hup : jsLt (qGet x i) lMin = true
      · rw [if_pos hup]
        obtain ⟨h1, h2⟩ := ih (i - 1) i (qGet x i)
        refine ⟨le_trans h1 (max_le
          (le_trans (by linarith : i - 1 ≤ i) (le_max_left i lBase))
          (le_max_left i lBase)), ?_⟩
        rcases h2 with h2 | h2
        · exact Or.inl h2
        · exact Or.inl (by rw [h2]; exact hg.1)
      · rw [if_neg hup]
        obtain ⟨h1, h2⟩ := ih (i - 1) lBase lMin
        exact ⟨le_trans h1 (max_le_max (by linarith) (le_refl _)), h2⟩
    · rw [if_neg hg]
      exact ⟨le_max_right _ _, Or.inr rfl⟩

/-- The right base walk keeps its base index between the minimum of the
current index and the incoming base, and `iMax` (any fuel). -/
theorem promRightWalk_base_bounds (x : List ℚ) (xPeak : JSVal) (iMax : ℚ) :
    ∀ (fuel : ℕ) (i rBase : ℚ) (rMin : JSVal),
      min i rBase ≤ (promRightWalk x xPeak iMax fuel i rMin rBase).2 ∧
      ((promRightWalk x xPeak iMax fuel i rMin rBase).2 ≤ iMax ∨
        (promRightWalk x xPeak iMax fuel i rMin rBase).2 = rBase) := by
  intro fuel
  induction fuel with
  | zero => intro i rBase rMin; exact ⟨min_le_right _ _, Or.inr rfl⟩
  | succ fuel ih =>
    intro i rBase rMin
    simp only [promRightWalk]
    by_cases hg : i ≤ iMax ∧ jsLe (qGet x i) xPeak = true
    · rw [if_pos hg]
      by_cases hup : jsLt (qGet x i) rMin = true
      · rw [if_pos hup]
        obtain ⟨h1, h2⟩ := ih (i + 1) i (qGet x i)
        refine ⟨le_trans (le_min
          (le_trans (min_le_left i rBase) (by linarith : i ≤ i + 1))
          (min_le_left i rBase)) h1, ?_⟩
        rcases h2 with h2 | h2
        · exact Or.inl h2
        · exact Or.inl (by rw [h2]; exact hg.1)
      · rw [if_neg hup]
        obtain ⟨h1, h2⟩ := ih (i + 1) rBase rMin
        exact ⟨le_trans (min_le_min (by linarith) (le_refl _)) h1, h2⟩
    · rw [if_neg hg]
      exact ⟨min_le_right _ _, Or.inr rfl⟩

/-- The tracked minimum never exceeds the peak value (any fuel): every
update stores a value that the loop guard bounded by `x[peak]`. -/
theorem promLeftWalk_min_le (x : List ℚ) (xPeak : JSVal) (iMin : ℚ) :
    ∀ (fuel : ℕ) (i lBase : ℚ) (lMin : JSVal),
      (∀ qa, lMin = some qa → ∃ qb, xPeak = some qb ∧ qa ≤ qb) →
      ∀ qa, (promLeftWalk x xPeak iMin fuel i lMin lBase).1 = some qa →
        ∃ qb, xPeak = some qb ∧ qa ≤ qb := by
  intro fuel
  induction fuel with
  | zero => intro i lBase lMin hinv qa hq; exact hinv qa hq
  | succ fuel ih =>
    intro i lBase lMin hinv qa hq
    simp only [promLeftWalk] at hq
    split at hq
    · rename_i hg
      split at hq
      · refine ih (i - 1) i (qGet x i) ?_ qa hq
        intro qc hqc
        obtain ⟨q1, q2, he1, he2, hle⟩ := jsLe_some hg.2
        rw [hqc] at he1
        injection he1 with he1
        exact ⟨q2, he2, he1 ▸ hle⟩
      · exact ih (i - 1) lBase lMin hinv qa hq
    · exact hinv qa hq

theorem promRightWalk_min_le (x : List ℚ) (xPeak : JSVal) (iMax : ℚ) :
    ∀ (fuel : ℕ) (i rBase : ℚ) (rMin : JSVal),
      (∀ qa, rMin = some qa → ∃ qb, xPeak = some qb ∧ qa ≤ qb) →
      ∀ qa, (promRightWalk x xPeak iMax fuel i rMin rBase).1 = some qa →
        ∃ qb, xPeak = some qb ∧ qa ≤ qb := by
  intro fuel
  induction fuel with
  | zero => intro i rBase rMin hinv qa hq; exact hinv qa hq
  | succ fuel ih =>
    intro i rBase rMin hinv qa hq
    simp only [promRightWalk] at hq
    split at hq
    · rename_i hg
      split at hq
      · refine ih (i + 1) i (qGet x i) ?_ qa hq
        intro qc hqc
        obtain ⟨q1, q2, he1, he2, hle⟩ := jsLe_some hg.2
        rw [hqc] at he1
        injection he1 with he1
        exact ⟨q2, he2, he1 ▸ hle⟩
      · exact ih (i + 1) rBase rMin hinv qa hq
    · exact hinv qa hq

/-- Let-free unfolding of `promOne` (definitional). -/
theorem promOne_eq (x : List ℚ) (wlen : ℤ) (peak : ℚ) :
    promOne x wlen peak =
      if ¬((0 : ℚ) ≤ peak ∧ peak ≤ (x.length : ℚ) - 1) then
        .error "peak is not a valid index for x"
      else
        .ok (jsSub (qGet x peak)
            (jsMax
              (promLeftWalk x (qGet x peak)
                (if 2 ≤ wlen then max 0 (peak - (wlen : ℚ)) else 0)
                (x.length + 2) peak (qGet x peak) peak).1
              (promRightWalk x (qGet x peak)
                (if 2 ≤ wlen then min ((x.length : ℚ) - 1) (peak + (wlen : ℚ))
                  else (x.length : ℚ) - 1)
                (x.length + 2) peak (qGet x peak) peak).1),
          (promLeftWalk x (qGet x peak)
            (if 2 ≤ wlen then max 0 (peak - (wlen : ℚ)) else 0)
            (x.length + 2) peak (qGet x peak) peak).2,
          (promRightWalk x (qGet x peak)
            (if 2 ≤ wlen then min ((x.length : ℚ) - 1) (peak + (wlen : ℚ))
              else (x.length : ℚ) - 1)
            (x.length + 2) peak (qGet x peak) peak).2) := rfl

/-! ## peakProminences on strictly monotone flanks (claim C7) -/

theorem chain_mono_le (x : List ℚ) (p : ℕ)
    (up : ∀ i : ℕ, i < p → x.getD i 0 < x.getD (i + 1) 0) :
    ∀ j i : ℕ, i ≤ j → j ≤ p → x.getD i 0 ≤ x.getD j 0 := by
  intro j
  induction j with
  | zero =>
    intro i hij hjp
    have : i = 0 := by omega
    subst this
    exact le_refl _
  | succ j ih =>
    intro i hij hjp
    rcases Nat.eq_or_lt_of_le hij with he | hlt
    · subst he; exact le_refl _
    · exact le_trans (ih i (by omega) (by omega)) (le_of_lt (up j (by omega)))

theorem chain_anti_le (x : List ℚ) (p : ℕ)
    (down : ∀ i : ℕ, p ≤ i → i + 1 < x.length → x.getD (i + 1) 0 < x.getD i 0) :
    ∀ j i : ℕ, p ≤ i → i ≤ j → j < x.length → x.getD j 0 ≤ x.getD i 0 := by
  intro j
  induction j with
  | zero =>
    intro i hpi hij hjn
    have : i = 0 := by omega
    subst this
    exact le_refl _
  | succ j ih =>
    intro i hpi hij hjn
    rcases Nat.eq_or_lt_of_le hij with he | hlt
    · subst he; exact le_refl _
    · exact le_trans (le_of_lt (down j (by omega) (by omega))) (ih i hpi (by omega) (by omega))

theorem promLeftWalk_strict_incr (x : List ℚ) (p : ℕ) (hp0 : 0 < p)
    (hpn : p < x.length)
    (up : ∀ i : ℕ, i < p → x.getD i 0 < x.getD (i + 1) 0) :
    ∀ (k : ℕ), k ≤ p → ∀ (fuel : ℕ), k + 2 ≤ fuel →
      promLeftWalk x (qGet x (p : ℚ)) 0 fuel (k : ℚ)
        (some (x.getD (min (k + 1) p) 0)) ((min (k + 1) p : ℕ) : ℚ) =
      (some (x.getD 0 0), 0) := by
  intro k
  induction k with
  | zero =>
    intro hk fuel hfuel
    obtain ⟨f1, rfl⟩ : ∃ f1, fuel = f1 + 1 := ⟨fuel - 1, by omega⟩
    have h0n : 0 < x.length := by omega
    simp only [promLeftWalk]
    rw [if_pos ⟨by simp, by
      rw [qGet_natCast h0n, qGet_natCast hpn]
      simp only [jsLe, decide_eq_true_eq]
      exact chain_mono_le x p up p 0 (by omega) (le_refl p)⟩]
    have hmin1 : min (0 + 1) p = 1 := by omega
    rw [hmin1, if_pos (by
      rw [qGet_natCast h0n]
      simp only [jsLt, decide_eq_true_eq]
      exact up 0 hp0)]
    obtain ⟨f2, rfl⟩ : ∃ f2, f1 = f2 + 1 := ⟨f1 - 1, by omega⟩
    simp only [promLeftWalk]
    rw [if_neg (fun hc => absurd hc.1 (by push_cast; norm_num))]
    rw [qGet_natCast h0n]
    simp
  | succ k ih =>
    intro hk fuel hfuel
    obtain ⟨f1, rfl⟩ : ∃ f1, fuel = f1 + 1 := ⟨fuel - 1, by omega⟩
    have hk1n : k + 1 < x.length := by omega
    have ihs := ih (by omega) f1 (by omega)
    rw [Nat.min_eq_left (show k + 1 ≤ p by omega)] at ihs
    simp only [promLeftWalk]
    rw [if_pos ⟨by positivity, by
      rw [qGet_natCast hk1n, qGet_natCast hpn]
      simp only [jsLe, decide_eq_true_eq]
      exact chain_mono_le x p up p (k + 1) hk (le_refl p)⟩]
    have hcast : ((k + 1 : ℕ) : ℚ) - 1 = (k : ℚ) := by push_cast; ring
    by_cases hkp : k + 1 < p
    · have hmin2 : min (k + 1 + 1) p = k + 2 := by omega
      rw [hmin2, if_pos (by
        rw [qGet_natCast hk1n]
        simp only [jsLt, decide_eq_true_eq]
        exact up (k + 1) hkp)]
      rw [hcast, qGet_natCast hk1n]
      exact ihs
    · have hkpe : k + 1 = p := by omega
      have hmin2 : min (k + 1 + 1) p = p := by omega
      rw [hmin2, if_neg (by
        rw [qGet_natCast hk1n, hkpe]
        simp only [jsLt, decide_eq_true_eq]
        exact lt_irrefl _)]
      rw [hcast]
      rw [hkpe] at ihs
      exact ihs

theorem promRightWalk_strict_decr (x : List ℚ) (p : ℕ) (hpn : p + 1 < x.length)
    (down : ∀ i : ℕ, p ≤ i → i + 1 < x.length → x.getD (i + 1) 0 < x.getD i 0) :
    ∀ (m k : ℕ), p ≤ k → k + m = x.length → ∀ (fuel : ℕ), m + 2 ≤ fuel →
      promRightWalk x (qGet x (p : ℚ)) ((x.length : ℚ) - 1) fuel (k : ℚ)
        (some (x.getD (max (k - 1) p) 0)) ((max (k - 1) p : ℕ) : ℚ) =
      (some (x.getD (x.length - 1) 0), ((x.length - 1 : ℕ) : ℚ)) := by
  intro m
  induction m with
  | zero =>
    intro k hpk hkm fuel hfuel
    obtain ⟨f1, rfl⟩ : ∃ f1, fuel = f1 + 1 := ⟨fuel - 1, by omega⟩
    simp only [promRightWalk]
    rw [if_neg (fun hc => absurd hc.1 (by
      rw [show k = x.length by omega]
      push_cast
      norm_num))]
    have : max (k - 1) p = x.length - 1 := by omega
    rw [this]
  | succ m ih =>
    intro k hpk hkm fuel hfuel
    obtain ⟨f1, rfl⟩ : ∃ f1, fuel = f1 + 1 := ⟨fuel - 1, by omega⟩
    have hkn : k < x.length := by omega
    simp only [promRightWalk]
    rw [if_pos ⟨by
        have : (k : ℚ) + 1 ≤ (x.length : ℚ) := by exact_mod_cast Nat.succ_le_of_lt hkn
        linarith, by
      rw [qGet_natCast hkn, qGet_natCast (by omega)]
      simp only [jsLe, decide_eq_true_eq]
      exact chain_anti_le x p down k p (le_refl p) hpk hkn⟩]
    have hcast : ((k : ℕ) : ℚ) + 1 = ((k + 1 : ℕ) : ℚ) := by push_cast; ring
    have ihs := ih (k + 1) (by omega) (by omega) f1 (by omega)
    rcases Nat.eq_or_lt_of_le hpk with hkpe | hkp
    · have hmax : max (k - 1) p = p := by omega
      rw [show max (k + 1 - 1) p = p by omega] at ihs
      rw [hmax, if_neg (by
        rw [qGet_natCast hkn, ← hkpe]
        simp only [jsLt, decide_eq_true_eq]
        exact lt_irrefl _)]
      rw [hcast]
      exact ihs
    · have hmax : max (k - 1) p = k - 1 := by omega
      rw [show max (k + 1 - 1) p = k by omega] at ihs
      rw [hmax, if_pos (by
        rw [qGet_natCast hkn]
        simp only [jsLt, decide_eq_true_eq]
        have := down (k - 1) (by omega) (by omega)
        rw [show k - 1 + 1 = k by omega] at this
        exact this)]
      rw [hcast, qGet_natCast hkn]
      exact ihs

/-- `promOne` on an isolated maximum between two strictly monotone flanks
reaching the signal edges: the bases are the two edges and the prominence
is `x[p] - max(x[0], x[n-1])`. -/
theorem promOne_monotone_flanks (x : List ℚ) (p : ℕ) (hp0 : 0 < p)
    (hpn : p + 1 < x.length)
    (up : ∀ i : ℕ, i < p → x.getD i 0 < x.getD (i + 1) 0)
    (down : ∀ i : ℕ, p ≤ i → i + 1 < x.length → x.getD (i + 1) 0 < x.getD i 0) :
    promOne x (-1) (p : ℚ) =
      .ok (some (x.getD p 0 - max (x.getD 0 0) (x.getD (x.length - 1) 0)), 0,
        ((x.length - 1 : ℕ) : ℚ)) := by
  rw [promOne_eq]
  have hvalid : (0 : ℚ) ≤ (p : ℚ) ∧ (p : ℚ) ≤ (x.length : ℚ) - 1 := by
    constructor
    · positivity
    · have : (p : ℚ) + 1 ≤ (x.length : ℚ) := by exact_mod_cast Nat.le_of_lt hpn
      linarith
  rw [if_neg (not_not_intro hvalid)]
  have h2 : ¬((2 : ℤ) ≤ -1) := by norm_num
  simp only [if_neg h2]
  have hL := promLeftWalk_strict_incr x p hp0 (by omega) up p (le_refl p)
    (x.length + 2) (by omega)
  rw [Nat.min_eq_right (by omega)] at hL
  have hR := promRightWalk_strict_decr x p hpn down (x.length - p) p (le_refl p)
    (by omega) (x.length + 2) (by omega)
  rw [Nat.max_eq_right (by omega)] at hR
  rw [qGet_natCast (by omega : p < x.length)] at hL hR ⊢
  rw [hL, hR]
  simp [jsSub, jsMax]

/-- Amended claim C7 (see `c7_prominence_not_min_edges` for the refutation
of the original `min` version): for an isolated maximum between two
strictly descending flanks reaching down to the window edges (the full
signal, `wlen = -1`), the computed prominence equals
`signal[peak] - max(leftEdgeValue, rightEdgeValue)`, with the two window
edges as bases. -/
theorem peakProminences_monotone_flanks (x : List ℚ) (p : ℕ) (hp0 : 0 < p)
    (hpn : p + 1 < x.length)
    (up : ∀ i : ℕ, i < p → x.getD i 0 < x.getD (i + 1) 0)
    (down : ∀ i : ℕ, p ≤ i → i + 1 < x.length → x.getD (i + 1) 0 < x.getD i 0) :
    peakProminences x [(p : ℚ)] (-1) =
      .ok ([some (x.getD p 0 - max (x.getD 0 0) (x.getD (x.length - 1) 0))],
        [0], [((x.length - 1 : ℕ) : ℚ)]) := by
  unfold peakProminences
  rw [List.mapM_cons, List.mapM_nil,
    promOne_monotone_flanks x p hp0 hpn up down]
  rfl

/-- Witness for `peakProminences_monotone_flanks` on `[0, 5, 3]`:
prominence `2 = 5 - max(0, 3)`, bases `0` and `2`. -/
theorem peakProminences_monotone_flanks_witness :
    (0 < 1 ∧ 1 + 1 < ([0, 5, 3] : List ℚ).length) ∧
    peakProminences [0, 5, 3] [(1 : ℕ)] (-1) =
      .ok ([some (([0, 5, 3] : List ℚ).getD 1 0 -
          max (([0, 5, 3] : List ℚ).getD 0 0) (([0, 5, 3] : List ℚ).getD (3 - 1) 0))],
        [0], [((3 - 1 : ℕ) : ℚ)]) :=
  ⟨⟨Nat.one_pos, by with_unfolding_all decide⟩,
    peakProminences_monotone_flanks [0, 5, 3] 1 Nat.one_pos
      (by with_unfolding_all decide)
      (fun i h1 => by
        interval_cases i
        with_unfolding_all decide)
      (fun i h1 h2 => by
        simp only [List.length_cons, List.length_nil] at h2
        have hi : i = 1 := by omega
        subst hi
        with_unfolding_all decide)⟩

/-! ## Generic mapM facts for Except -/

theorem except_mapM_length {ε α β : Type} (f : α → Except ε β) :
    ∀ (l : List α) (res : List β), List.mapM f l = .ok res →
      res.length = l.length := by
  intro l
  induction l with
  | nil =>
    intro res h
    rw [List.mapM_nil, except_pure] at h
    injection h with h
    rw [← h]
    rfl
  | cons a l ih =>
    intro res h
    rw [List.mapM_cons] at h
    cases hfa : f a with
    | error e => rw [hfa, except_bind_error] at h; cases h
    | ok b =>
      rw [hfa, except_bind_ok] at h
      cases hml : List.mapM f l with
      | error e => rw [hml, except_bind_error] at h; cases h
      | ok bs =>
        rw [hml, except_bind_ok, except_pure] at h
        injection h with h
        rw [← h]
        simp [ih bs hml]

theorem except_mapM_get {ε α β : Type} (f : α → Except ε β) :
    ∀ (l : List α) (res : List β), List.mapM f l = .ok res →
      ∀ (i : ℕ) (hi : i < l.length) (hi2 : i < res.length),
        f (l.get ⟨i, hi⟩) = .ok (res.get ⟨i, hi2⟩) := by
  intro l
  induction l with
  | nil => intro res h i hi; cases hi
  | cons a l ih =>
    intro res h i hi hi2
    rw [List.mapM_cons] at h
    cases hfa : f a with
    | error e => rw [hfa, except_bind_error] at h; cases h
    | ok b =>
      rw [hfa, except_bind_ok] at h
      cases hml : List.mapM f l with
      | error e => rw [hml, except_bind_error] at h; cases h
      | ok bs =>
        rw [hml, except_bind_ok, except_pure] at h
        injection h with h
        subst h
        cases i with
        | zero => simpa using hfa
        | succ i => exact ih bs hml i (by simpa using hi) (by simpa using hi2)

theorem except_mapM_ok_of_forall {ε α β : Type} (f : α → Except ε β) :
    ∀ (l : List α), (∀ a ∈ l, ∃ b, f a = .ok b) →
      ∃ res, List.mapM f l = .ok res := by
  intro l
  induction l with
  | nil => intro _; exact ⟨[], rfl⟩
  | cons a l ih =>
    intro hall
    obtain ⟨b, hb⟩ := hall a (List.mem_cons_self a l)
    obtain ⟨bs, hbs⟩ := ih fun c hc => hall c (List.mem_cons_of_mem a hc)
    exact ⟨b :: bs, by rw [List.mapM_cons, hb, except_bind_ok, hbs, except_bind_ok,
      except_pure]⟩

/-! ## promOne: output bounds -/

/-- Base indices with denominator 1 stay so through the left walk: the base
is only ever updated to an index at which the signal is defined. -/
theorem promLeftWalk_base_den (x : List ℚ) (xPeak : JSVal) (iMin : ℚ) :
    ∀ (fuel : ℕ) (i lBase : ℚ) (lMin : JSVal), lBase.den = 1 →
      (promLeftWalk x xPeak iMin fuel i lMin lBase).2.den = 1 := by
  intro fuel
  induction fuel with
  | zero => intro i lBase lMin h; exact h
  | succ fuel ih =>
    intro i lBase lMin h
    simp only [promLeftWalk]
    by_cases hg : iMin ≤ i ∧ jsLe (qGet x i) xPeak = true
    · rw [if_pos hg]
      by_cases hup : jsLt (qGet x i) lMin = true
      · rw [if_pos hup]
        refine ih (i - 1) i (qGet x i) ?_
        obtain ⟨qa, qb, he1, he2, _⟩ := jsLt_some hup
        unfold qGet at he1
        by_cases hden : i.den = 1
        · exact hden
        · rw [if_neg hden] at he1; cases he1
      · rw [if_neg hup]
        exact ih (i - 1) lBase lMin h
    · rw [if_neg hg]
      exact h

theorem promRightWalk_base_den (x : List ℚ) (xPeak : JSVal) (iMax : ℚ) :
    ∀ (fuel : ℕ) (i rBase : ℚ) (rMin : JSVal), rBase.den = 1 →
      (promRightWalk x xPeak iMax fuel i rMin rBase).2.den = 1 := by
  intro fuel
  induction fuel with
  | zero => intro i rBase rMin h; exact h
  | succ fuel ih =>
    intro i rBase rMin h
    simp only [promRightWalk]
    by_cases hg : i ≤ iMax ∧ jsLe (qGet x i) xPeak = true
    · rw [if_pos hg]
      by_cases hup : jsLt (qGet x i) rMin = true
      · rw [if_pos hup]
        refine ih (i + 1) i (qGet x i) ?_
        obtain ⟨qa, qb, he1, he2, _⟩ := jsLt_some hup
        unfold qGet at he1
        by_cases hden : i.den = 1
        · exact hden
        · rw [if_neg hden] at he1; cases he1
      · rw [if_neg hup]
        exact ih (i + 1) rBase rMin h
    · rw [if_neg hg]
      exact h

theorem jsSub_some {a b : JSVal} {q : ℚ} (h : jsSub a b = some q) :
    ∃ qa qb, a = some qa ∧ b = some qb ∧ q = qa - qb := by
  cases a with
  | none => simp [jsSub] at h
  | some qa =>
    cases b with
    | none => simp [jsSub] at h
    | some qb =>
      refine ⟨qa, qb, rfl, rfl, ?_⟩
      simp only [jsSub] at h
      injection h with h
      exact h.symm

theorem jsMax_some {a b : JSVal} {q : ℚ} (h : jsMax a b = some q) :
    ∃ qa qb, a = some qa ∧ b = some qb ∧ q = max qa qb := by
  cases a with
  | none => simp [jsMax] at h
  | some qa =>
    cases b with
    | none => simp [jsMax] at h
    | some qb =>
      refine ⟨qa, qb, rfl, rfl, ?_⟩
      simp only [jsMax] at h
      injection h with h
      exact h.symm

/-- Everything `peakWidths` later relies on about one `promOne` output with
the default full window (`wlen = -1`): the peak is a valid index, the bases
surround the peak within the signal, the prominence (when a number) is
nonnegative, and when the prominence is a number the peak and both bases
are integers. -/
theorem promOne_ok_bounds {x : List ℚ} {peak : ℚ} {pr : JSVal} {lb rb : ℚ}
    (h : promOne x (-1) peak = .ok (pr, lb, rb)) :
    (0 ≤ peak ∧ peak ≤ (x.length : ℚ) - 1) ∧
    (0 ≤ lb ∧ lb ≤ peak ∧ peak ≤ rb ∧ rb ≤ (x.length : ℚ) - 1) ∧
    (∀ q, pr = some q →
      0 ≤ q ∧ peak.den = 1 ∧ lb.den = 1 ∧ rb.den = 1) := by
  rw [promOne_eq] at h
  by_cases hv : (0 : ℚ) ≤ peak ∧ peak ≤ (x.length : ℚ) - 1
  · rw [if_neg (not_not_intro hv)] at h
    have h2 : ¬((2 : ℤ) ≤ -1) := by norm_num
    simp only [if_neg h2] at h
    injection h with h
    obtain ⟨hpr, hlb, hrb⟩ : pr = _ ∧ lb = _ ∧ rb = _ := by
      refine ⟨congrArg (fun t => t.1) h.symm, congrArg (fun t => t.2.1) h.symm,
        congrArg (fun t => t.2.2) h.symm⟩
    have hLB := promLeftWalk_base_bounds x (qGet x peak) 0 (x.length + 2) peak peak
      (qGet x peak)
    have hRB := promRightWalk_base_bounds x (qGet x peak) ((x.length : ℚ) - 1)
      (x.length + 2) peak peak (qGet x peak)
    refine ⟨hv, ⟨?_, ?_, ?_, ?_⟩, ?_⟩
    · rw [hlb]
      rcases hLB.2 with hh | hh
      · exact hh
      · rw [hh]; exact hv.1
    · rw [hlb]
      simpa using hLB.1
    · rw [hrb]
      simpa using hRB.1
    · rw [hrb]
      rcases hRB.2 with hh | hh
      · exact hh
      · rw [hh]; exact hv.2
    · intro q hq
      rw [hpr] at hq
      obtain ⟨xp, mx, hxp, hmx, hqe⟩ := jsSub_some hq
      obtain ⟨lm, rm, hlm, hrm, hmxe⟩ := jsMax_some hmx
      have hpden : peak.den = 1 := by
        unfold qGet at hxp
        by_cases hden : peak.den = 1
        · exact hden
        · rw [if_neg hden] at hxp; cases hxp
      refine ⟨?_, hpden, by rw [hlb]; exact promLeftWalk_base_den _ _ _ _ _ _ _ hpden,
        by rw [hrb]; exact promRightWalk_base_den _ _ _ _ _ _ _ hpden⟩
      have hinv : ∀ qa, qGet x peak = some qa →
          ∃ qb, qGet x peak = some qb ∧ qa ≤ qb :=
        fun qa hqa => ⟨qa, hqa, le_refl qa⟩
      obtain ⟨qb1, hqb1, hle1⟩ :=
        promLeftWalk_min_le x (qGet x peak) 0 (x.length + 2) peak peak
          (qGet x peak) hinv lm hlm
      obtain ⟨qb2, hqb2, hle2⟩ :=
        promRightWalk_min_le x (qGet x peak) ((x.length : ℚ) - 1)
          (x.length + 2) peak peak (qGet x peak) hinv rm hrm
      rw [hxp] at hqb1 hqb2
      injection hqb1 with hqb1
      injection hqb2 with hqb2
      rw [hqe, hmxe]
      have : max lm rm ≤ xp := max_le (hqb1 ▸ hle1) (hqb2 ▸ hle2)
      linarith
  · rw [if_pos hv] at h
    cases h


/-! ## Error behavior of the pipeline (claim C2) -/

theorem widthOne_eq (x : List ℚ) (relHeight peak : ℚ) (prom : JSVal) (lb rb : ℚ) :
    widthOne x relHeight peak prom lb rb =
      if ¬((0 : ℚ) ≤ lb ∧ lb ≤ peak ∧ peak ≤ rb ∧ rb < (x.length : ℚ)) then
        .error "prominence data is invalid for peak"
      else
        .ok (jsSub
            (widthRightIp x (widthHv x relHeight peak prom)
              (widthRightWalk x (widthHv x relHeight peak prom) rb (x.length + 2) peak))
            (widthLeftIp x (widthHv x relHeight peak prom)
              (widthLeftWalk x (widthHv x relHeight peak prom) lb (x.length + 2) peak)),
          widthHv x relHeight peak prom,
          widthLeftIp x (widthHv x relHeight peak prom)
            (widthLeftWalk x (widthHv x relHeight peak prom) lb (x.length + 2) peak),
          widthRightIp x (widthHv x relHeight peak prom)
            (widthRightWalk x (widthHv x relHeight peak prom) rb (x.length + 2) peak)) :=
  rfl

theorem widthOne_ok {x : List ℚ} {relHeight peak : ℚ} {prom : JSVal} {lb rb : ℚ}
    (h : (0 : ℚ) ≤ lb ∧ lb ≤ peak ∧ peak ≤ rb ∧ rb < (x.length : ℚ)) :
    ∃ v, widthOne x relHeight peak prom lb rb = .ok v :=
  ⟨_, by rw [widthOne_eq, if_neg (not_not_intro h)]⟩

theorem resolveBorder_ok {x : List ℚ} {e : Option BElem} (peaks : List ℚ)
    (msg : String) (h : ¬borderMismatch x e) :
    ∃ b, resolveBorder e x peaks msg = .ok b := by
  cases e with
  | none => exact ⟨.noBound, rfl⟩
  | some el =>
    cases el with
    | num v => exact ⟨.scalar v, rfl⟩
    | arr vs =>
      have hlen : vs.length = x.length := by
        by_contra hc
        exact h hc
      exact ⟨_, by simp only [resolveBorder]; rw [if_pos hlen]⟩

theorem resolveBorder_error {x : List ℚ} {e : Option BElem} (peaks : List ℚ)
    (msg : String) (h : borderMismatch x e) :
    resolveBorder e x peaks msg = .error msg := by
  cases e with
  | none => cases h
  | some el =>
    cases el with
    | num v => cases h
    | arr vs => simp only [resolveBorder]; rw [if_neg h]

theorem unpackConditionArgs_ok {x : List ℚ} {b : BoundArg} (peaks : List ℚ)
    (h : ¬boundMismatch x b) :
    ∃ r, unpackConditionArgs b x peaks = .ok r := by
  cases b with
  | scalar v => exact ⟨_, rfl⟩
  | pair elems =>
    simp only [boundMismatch] at h
    have h0 : ¬borderMismatch x elems[0]? := fun hc => h (Or.inl hc)
    have h1 : ¬borderMismatch x elems[1]? := fun hc => h (Or.inr hc)
    obtain ⟨b0, hb0⟩ := resolveBorder_ok peaks _ h0
    obtain ⟨b1, hb1⟩ := resolveBorder_ok peaks _ h1
    refine ⟨(b0, b1), ?_⟩
    simp only [unpackConditionArgs]
    rw [hb0, except_bind_ok, hb1, except_bind_ok, except_pure]

theorem unpackConditionArgs_error {x : List ℚ} {b : BoundArg} (peaks : List ℚ)
    (h : boundMismatch x b) :
    ∃ e, unpackConditionArgs b x peaks = .error e := by
  cases b with
  | scalar v => cases h
  | pair elems =>
    simp only [boundMismatch] at h
    by_cases h0 : borderMismatch x elems[0]?
    · exact ⟨_, by
        simp only [unpackConditionArgs]
        rw [resolveBorder_error peaks _ h0, except_bind_error]⟩
    · have h1 : borderMismatch x elems[1]? := by
        rcases h with hc | hc
        · exact absurd hc h0
        · exact hc
      obtain ⟨b0, hb0⟩ := resolveBorder_ok peaks _ h0
      exact ⟨_, by
        simp only [unpackConditionArgs]
        rw [hb0, except_bind_ok, resolveBorder_error peaks _ h1, except_bind_error]⟩

theorem heightStep_ok {x : List ℚ} {ho : Option BoundArg} (s : PState)
    (h : ¬optMismatch x ho) : ∃ s2, heightStep x ho s = .ok s2 := by
  cases ho with
  | none => exact ⟨s, rfl⟩
  | some hArg =>
    obtain ⟨b, hb⟩ := unpackConditionArgs_ok s.1 h
    exact ⟨_, by
      simp only [heightStep]
      rw [hb, except_bind_ok, except_pure]⟩

theorem heightStep_error {x : List ℚ} {ho : Option BoundArg} (s : PState)
    (h : optMismatch x ho) : ∃ e, heightStep x ho s = .error e := by
  cases ho with
  | none => cases h
  | some hArg =>
    obtain ⟨e, he⟩ := unpackConditionArgs_error s.1 h
    refine ⟨e, ?_⟩
    simp only [heightStep]
    rw [he, except_bind_error]

theorem promOne_ok {x : List ℚ} {peak : ℚ} (wlen : ℤ)
    (h : (0 : ℚ) ≤ peak ∧ peak ≤ (x.length : ℚ) - 1) :
    ∃ v, promOne x wlen peak = .ok v :=
  ⟨_, by rw [promOne_eq, if_neg (not_not_intro h)]⟩

theorem peakProminences_ok {x : List ℚ} {peaks : List ℚ} (wlen : ℤ)
    (h : ∀ p ∈ peaks, (0 : ℚ) ≤ p ∧ p ≤ (x.length : ℚ) - 1) :
    ∃ r, peakProminences x peaks wlen = .ok r := by
  obtain ⟨res, hres⟩ := except_mapM_ok_of_forall (promOne x wlen) peaks
    (fun p hp => promOne_ok wlen (h p hp))
  exact ⟨_, by simp only [peakProminences]; rw [hres, except_bind_ok, except_pure]⟩

theorem promComputeStep_false (x : List ℚ) (s : PState) :
    promComputeStep x false s = .ok s := rfl

theorem promComputeStep_ok_exists {x : List ℚ} {s : PState}
    (h : ∀ p ∈ s.1, (0 : ℚ) ≤ p ∧ p ≤ (x.length : ℚ) - 1) :
    ∃ s2, promComputeStep x true s = .ok s2 := by
  obtain ⟨r, hr⟩ := peakProminences_ok (-1) h
  exact ⟨_, by simp only [promComputeStep, if_true]; rw [hr, except_bind_ok, except_pure]⟩

theorem promComputeStep_ok_elim {x : List ℚ} {s s2 : PState}
    (h : promComputeStep x true s = .ok s2) :
    s2.1 = s.1 ∧ ∃ proms lbs rbs,
      s2.2.prominences = some proms ∧ s2.2.leftBases = some lbs ∧
      s2.2.rightBases = some rbs ∧ proms.length = s2.1.length ∧
      PromDataOK x s2.1 lbs rbs := by
  simp only [promComputeStep, if_true] at h
  cases hpp : peakProminences x s.1 (-1) with
  | error e => rw [hpp, except_bind_error] at h; cases h
  | ok res =>
    rw [hpp, except_bind_ok, except_pure] at h
    injection h with h
    simp only [peakProminences] at hpp
    cases hm : List.mapM (promOne x (-1)) s.1 with
    | error e => rw [hm, except_bind_error] at hpp; cases hpp
    | ok rs =>
      rw [hm, except_bind_ok, except_pure] at hpp
      injection hpp with hpp
      subst hpp
      subst h
      have hlen := except_mapM_length (promOne x (-1)) s.1 rs hm
      refine ⟨rfl, rs.map (·.1), rs.map (·.2.1), rs.map (·.2.2), rfl, rfl, rfl,
        by simp [hlen], by simp [hlen], by simp [hlen], ?_⟩
      intro t ht
      rw [List.mem_iff_getElem] at ht
      obtain ⟨i, hi, hti⟩ := ht
      have hi1 : i < s.1.length := by
        rw [List.length_zip, List.length_zip] at hi
        simp only [List.length_map] at hi
        omega
      have hi2 : i < rs.length := by omega
      have hone := except_mapM_get (promOne x (-1)) s.1 rs hm i hi1 hi2
      have hb := promOne_ok_bounds hone
      rw [List.getElem_zip, List.getElem_zip, List.getElem_map, List.getElem_map]
        at hti
      rw [← hti]
      exact ⟨hb.2.1.1, hb.2.1.2.1, hb.2.1.2.2.1, hb.2.1.2.2.2⟩

theorem PromDataOK_mask {x : List ℚ} {peaks lbs rbs : List ℚ} (keep : List Bool)
    (h : PromDataOK x peaks lbs rbs) :
    PromDataOK x (jsFilterMask keep peaks) (jsFilterMask keep lbs)
      (jsFilterMask keep rbs) := by
  obtain ⟨hl, hr, hb⟩ := h
  refine ⟨maskFrom_length_eq keep 0 lbs peaks hl,
    maskFrom_length_eq keep 0 rbs peaks hr, ?_⟩
  intro t ht
  apply hb
  have hzl : lbs.length = rbs.length := hl.trans hr.symm
  have hzp : peaks.length = (lbs.zip rbs).length := by
    rw [List.length_zip, hl, hr, min_self]
  unfold jsFilterMask at ht
  rw [← maskFrom_zip keep 0 lbs rbs hzl,
    ← maskFrom_zip keep 0 peaks (lbs.zip rbs) hzp] at ht
  exact (maskFrom_sublist keep 0 (peaks.zip (lbs.zip rbs))).mem ht

theorem filterProps_eq_of_defined {pr : Properties} (keep : List Bool)
    (h : pr.peakHeights ≠ some none) :
    filterProps keep pr = .ok {
      peakHeights := pr.peakHeights.map fun v => v.map (jsFilterMask keep)
      prominences := pr.prominences.map (jsFilterMask keep)
      leftBases := pr.leftBases.map (jsFilterMask keep)
      rightBases := pr.rightBases.map (jsFilterMask keep)
      widths := pr.widths.map (jsFilterMask keep)
      widthHeights := pr.widthHeights.map (jsFilterMask keep)
      leftIps := pr.leftIps.map (jsFilterMask keep)
      rightIps := pr.rightIps.map (jsFilterMask keep) } := by
  cases hph : pr.peakHeights with
  | none =>
    unfold filterProps
    rw [hph]
  | some v =>
    cases v with
    | none => exact absurd hph h
    | some l =>
      unfold filterProps
      rw [hph]

theorem filterProps_error_of_undefined (keep : List Bool) {pr : Properties}
    (h : pr.peakHeights = some none) :
    filterProps keep pr =
      .error "TypeError: Cannot read properties of undefined (reading filter)" := by
  unfold filterProps
  rw [h]

theorem filterProps_ok_elim {keep : List Bool} {pr pr2 : Properties}
    (h : filterProps keep pr = .ok pr2) :
    pr2.widths = pr.widths.map (jsFilterMask keep) ∧
    pr2.leftIps = pr.leftIps.map (jsFilterMask keep) ∧
    pr2.rightIps = pr.rightIps.map (jsFilterMask keep) := by
  cases hph : pr.peakHeights with
  | none =>
    rw [filterProps_eq_of_defined keep (by simp [hph])] at h
    injection h with h
    rw [← h]
    exact ⟨rfl, rfl, rfl⟩
  | some v =>
    cases v with
    | none => rw [filterProps_error_of_undefined keep hph] at h; cases h
    | some l =>
      rw [filterProps_eq_of_defined keep (by simp [hph])] at h
      injection h with h
      rw [← h]
      exact ⟨rfl, rfl, rfl⟩

theorem promFilterStep_error {x : List ℚ} {po : Option BoundArg} (s : PState)
    (h : optMismatch x po) : ∃ e, promFilterStep x po s = .error e := by
  cases po with
  | none => cases h
  | some pArg =>
    obtain ⟨e, he⟩ := unpackConditionArgs_error s.1 h
    exact ⟨e, by
      simp only [promFilterStep]
      rw [he, except_bind_error]⟩

theorem promFilterStep_ok_inv {x : List ℚ} {po : Option BoundArg} {s : PState}
    {proms : List JSVal} {lbs rbs : List ℚ}
    (hp : s.2.prominences = some proms) (hl : s.2.leftBases = some lbs)
    (hr : s.2.rightBases = some rbs) (hplen : proms.length = s.1.length)
    (hinv : PromDataOK x s.1 lbs rbs) (hph : s.2.peakHeights ≠ some none)
    (hmm : ¬optMismatch x po) :
    ∃ s2 proms2 lbs2 rbs2, promFilterStep x po s = .ok s2 ∧
      s2.2.prominences = some proms2 ∧ s2.2.leftBases = some lbs2 ∧
      s2.2.rightBases = some rbs2 ∧ proms2.length = s2.1.length ∧
      PromDataOK x s2.1 lbs2 rbs2 ∧ s2.2.peakHeights ≠ some none := by
  cases po with
  | none => exact ⟨s, proms, lbs, rbs, rfl, hp, hl, hr, hplen, hinv, hph⟩
  | some pArg =>
    obtain ⟨b, hb⟩ := unpackConditionArgs_ok s.1 hmm
    have hgd : s.2.prominences.getD [] = proms := by rw [hp]; rfl
    refine ⟨(jsFilterMask (selectByProperty proms b.1 b.2) s.1, {
        peakHeights := s.2.peakHeights.map fun v =>
          v.map (jsFilterMask (selectByProperty proms b.1 b.2))
        prominences := s.2.prominences.map
          (jsFilterMask (selectByProperty proms b.1 b.2))
        leftBases := s.2.leftBases.map
          (jsFilterMask (selectByProperty proms b.1 b.2))
        rightBases := s.2.rightBases.map
          (jsFilterMask (selectByProperty proms b.1 b.2))
        widths := s.2.widths.map (jsFilterMask (selectByProperty proms b.1 b.2))
        widthHeights := s.2.widthHeights.map
          (jsFilterMask (selectByProperty proms b.1 b.2))
        leftIps := s.2.leftIps.map (jsFilterMask (selectByProperty proms b.1 b.2))
        rightIps := s.2.rightIps.map
          (jsFilterMask (selectByProperty proms b.1 b.2)) }),
      jsFilterMask (selectByProperty proms b.1 b.2) proms,
      jsFilterMask (selectByProperty proms b.1 b.2) lbs,
      jsFilterMask (selectByProperty proms b.1 b.2) rbs,
      ?_, ?_, ?_, ?_, ?_, ?_, ?_⟩
    · simp only [promFilterStep]
      rw [hb, except_bind_ok, hgd,
        filterProps_eq_of_defined (selectByProperty proms b.1 b.2) hph,
        except_bind_ok, except_pure]
    · simp only [hp, Option.map_some']
    · simp only [hl, Option.map_some']
    · simp only [hr, Option.map_some']
    · exact maskFrom_length_eq _ 0 proms s.1 hplen
    · exact PromDataOK_mask _ hinv
    · cases hphs : s.2.peakHeights with
      | none => simp
      | some v =>
        cases v with
        | none => exact absurd hphs hph
        | some l => simp [hphs]

theorem peakWidths_ok_elim {x peaks : List ℚ} {relHeight : ℚ} {proms : List JSVal}
    {lbs rbs : List ℚ} {r : List JSVal × List JSVal × List JSVal × List JSVal}
    (h : peakWidths x peaks relHeight proms lbs rbs = .ok r) :
    ¬relHeight < 0 ∧
    (peaks.length = proms.length ∧ proms.length = lbs.length ∧
      lbs.length = rbs.length) ∧
    ∃ res, ((List.range peaks.length).mapM fun p =>
        widthOne x relHeight (peaks.getD p 0) (proms.getD p none)
          (lbs.getD p 0) (rbs.getD p 0)) = .ok res ∧
      r = (res.map (·.1), res.map (·.2.1), res.map (·.2.2.1), res.map (·.2.2.2)) := by
  simp only [peakWidths] at h
  by_cases h0 : relHeight < 0
  · rw [if_pos h0] at h; cases h
  · rw [if_neg h0] at h
    by_cases h1 : peaks.length = proms.length ∧ proms.length = lbs.length ∧
        lbs.length = rbs.length
    · rw [if_neg (not_not_intro h1)] at h
      cases hm : (List.range peaks.length).mapM (fun p =>
          widthOne x relHeight (peaks.getD p 0) (proms.getD p none)
            (lbs.getD p 0) (rbs.getD p 0)) with
      | error e => rw [hm, except_bind_error] at h; cases h
      | ok res =>
        rw [hm, except_bind_ok] at h
        injection h with h
        exact ⟨h0, h1, res, rfl, h.symm⟩
    · rw [if_pos h1] at h; cases h

theorem peakWidths_ok {x : List ℚ} {peaks : List ℚ} {proms : List JSVal}
    {lbs rbs : List ℚ} (relHeight : ℚ) (h0 : ¬relHeight < 0)
    (hplen : proms.length = peaks.length) (hinv : PromDataOK x peaks lbs rbs) :
    ∃ r, peakWidths x peaks relHeight proms lbs rbs = .ok r := by
  obtain ⟨hl, hr, hb⟩ := hinv
  have hall : ∀ p ∈ List.range peaks.length, ∃ v,
      widthOne x relHeight (peaks.getD p 0) (proms.getD p none)
        (lbs.getD p 0) (rbs.getD p 0) = .ok v := by
    intro p hp
    have hpl : p < peaks.length := List.mem_range.mp hp
    have ht : (peaks.getD p 0, (lbs.getD p 0, rbs.getD p 0)) ∈
        peaks.zip (lbs.zip rbs) := by
      rw [List.mem_iff_getElem]
      refine ⟨p, ?_, ?_⟩
      · rw [List.length_zip, List.length_zip, hl, hr]
        omega
      · rw [List.getElem_zip, List.getElem_zip, getD_lt hpl 0,
          getD_lt (show p < lbs.length by omega) 0,
          getD_lt (show p < rbs.length by omega) 0]
        rfl
    have hbt := hb _ ht
    refine widthOne_ok ⟨hbt.1, hbt.2.1, hbt.2.2.1, ?_⟩
    have := hbt.2.2.2
    have hx : (x.length : ℚ) - 1 < (x.length : ℚ) := by linarith
    linarith
  obtain ⟨res, hres⟩ := except_mapM_ok_of_forall _ (List.range peaks.length) hall
  exact ⟨_, by
    simp only [peakWidths]
    rw [if_neg h0, if_neg (not_not_intro ⟨hplen.symm, by omega, by omega⟩), hres,
      except_bind_ok]⟩

theorem widthStep_ok {x : List ℚ} {wo : Option BoundArg} {s : PState}
    {proms : List JSVal} {lbs rbs : List ℚ}
    (hp : s.2.prominences = some proms) (hl : s.2.leftBases = some lbs)
    (hr : s.2.rightBases = some rbs) (hplen : proms.length = s.1.length)
    (hinv : PromDataOK x s.1 lbs rbs) (hph : s.2.peakHeights ≠ some none)
    (hmm : ¬optMismatch x wo) :
    ∃ s2, widthStep x wo s = .ok s2 := by
  cases wo with
  | none => exact ⟨s, rfl⟩
  | some wArg =>
    obtain ⟨res, hres⟩ := peakWidths_ok 0 (by norm_num) hplen hinv
    obtain ⟨b, hb⟩ := unpackConditionArgs_ok s.1 hmm
    have hgp : s.2.prominences.getD [] = proms := by rw [hp]; rfl
    have hgl : s.2.leftBases.getD [] = lbs := by rw [hl]; rfl
    have hgr : s.2.rightBases.getD [] = rbs := by rw [hr]; rfl
    have hph2 : ({ s.2 with
        widths := some res.1
        widthHeights := some res.2.1
        leftIps := some res.2.2.1
        rightIps := some res.2.2.2 : Properties }).peakHeights ≠ some none := hph
    exact ⟨_, by
      simp only [widthStep]
      rw [hgp, hgl, hgr, hres, except_bind_ok, hb, except_bind_ok,
        filterProps_eq_of_defined _ hph2, except_bind_ok, except_pure]⟩

theorem widthStep_error_undef {x : List ℚ} {wArg : BoundArg} {s : PState}
    {proms : List JSVal} {lbs rbs : List ℚ}
    (hp : s.2.prominences = some proms) (hl : s.2.leftBases = some lbs)
    (hr : s.2.rightBases = some rbs) (hplen : proms.length = s.1.length)
    (hinv : PromDataOK x s.1 lbs rbs) (hph : s.2.peakHeights = some none)
    (hmm : ¬optMismatch x (some wArg)) :
    ∃ e, widthStep x (some wArg) s = .error e := by
  obtain ⟨res, hres⟩ := peakWidths_ok 0 (by norm_num) hplen hinv
  obtain ⟨b, hb⟩ := unpackConditionArgs_ok s.1 hmm
  have hgp : s.2.prominences.getD [] = proms := by rw [hp]; rfl
  have hgl : s.2.leftBases.getD [] = lbs := by rw [hl]; rfl
  have hgr : s.2.rightBases.getD [] = rbs := by rw [hr]; rfl
  have hph2 : ({ s.2 with
      widths := some res.1
      widthHeights := some res.2.1
      leftIps := some res.2.2.1
      rightIps := some res.2.2.2 : Properties }).peakHeights = some none := hph
  exact ⟨_, by
    simp only [widthStep]
    rw [hgp, hgl, hgr, hres, except_bind_ok, hb, except_bind_ok,
      filterProps_error_of_undefined _ hph2, except_bind_error]⟩

theorem promFilterStep_error_undef {x : List ℚ} {pArg : BoundArg} {s : PState}
    (hph : s.2.peakHeights = some none) (hmm : ¬optMismatch x (some pArg)) :
    ∃ e, promFilterStep x (some pArg) s = .error e := by
  obtain ⟨b, hb⟩ := unpackConditionArgs_ok s.1 hmm
  exact ⟨_, by
    simp only [promFilterStep]
    rw [hb, except_bind_ok, filterProps_error_of_undefined _ hph,
      except_bind_error]⟩

theorem widthStep_error {x : List ℚ} {wo : Option BoundArg} {s : PState}
    {proms : List JSVal} {lbs rbs : List ℚ}
    (hp : s.2.prominences = some proms) (hl : s.2.leftBases = some lbs)
    (hr : s.2.rightBases = some rbs) (hplen : proms.length = s.1.length)
    (hinv : PromDataOK x s.1 lbs rbs) (hmm : optMismatch x wo) :
    ∃ e, widthStep x wo s = .error e := by
  cases wo with
  | none => cases hmm
  | some wArg =>
    obtain ⟨res, hres⟩ := peakWidths_ok 0 (by norm_num) hplen hinv
    obtain ⟨e, he⟩ := unpackConditionArgs_error s.1 hmm
    have hgp : s.2.prominences.getD [] = proms := by rw [hp]; rfl
    have hgl : s.2.leftBases.getD [] = lbs := by rw [hl]; rfl
    have hgr : s.2.rightBases.getD [] = rbs := by rw [hr]; rfl
    exact ⟨e, by
      simp only [widthStep]
      rw [hgp, hgl, hgr, hres, except_bind_ok, he, except_bind_error]⟩

theorem heightStep_ok_ph {x : List ℚ} {ho : Option BoundArg} {s s2 : PState}
    (hs : heightStep x ho s = .ok s2) (h0 : s.2.peakHeights = none) :
    (ho = none ∧ s2.2.peakHeights = none) ∨
    ∃ l, s2.2.peakHeights = some (some l) := by
  cases ho with
  | none =>
    left
    injection hs with hs
    rw [← hs]
    exact ⟨rfl, h0⟩
  | some hArg =>
    right
    simp only [heightStep] at hs
    cases hu : unpackConditionArgs hArg x s.1 with
    | error e => rw [hu, except_bind_error] at hs; cases hs
    | ok b =>
      rw [hu, except_bind_ok, except_pure] at hs
      injection hs with hs
      exact ⟨s.1.map fun i => qGet x i, by rw [← hs]⟩

theorem distanceStep_ph_some (x : List ℚ) (d : ℚ) (s : PState) :
    (distanceStep x (some d) s).2.peakHeights =
      some (match s.2.peakHeights with
        | some (some l) => some (jsFilterMask
            (selectByPeakDistance s.1 (s.1.map fun i => qGet x i) d) l)
        | _ => none) := rfl

/-- After the height and distance blocks, the `peakHeights` entry is not
the present-but-`undefined` value as long as `distance` was not supplied
without `height`. -/
theorem distance_state_ph {x : List ℚ} {opts : FindPeaksOptions} {s1 : PState}
    (hs1 : heightStep x opts.height ((localMaxima1D x).midpoints, {}) = .ok s1)
    (hnc : ¬(opts.distance.isSome = true ∧ opts.height = none)) :
    (distanceStep x opts.distance s1).2.peakHeights ≠ some none := by
  have hph := heightStep_ok_ph hs1 rfl
  cases hd : opts.distance with
  | none =>
    show s1.2.peakHeights ≠ some none
    rcases hph with ⟨_, he⟩ | ⟨l, he⟩
    · rw [he]
      exact fun hc => Option.noConfusion hc
    · rw [he]
      intro hc
      injection hc with hc
      exact Option.noConfusion hc
  | some d =>
    have hhs : ¬opts.height = none := fun he => hnc ⟨by rw [hd]; rfl, he⟩
    rcases hph with ⟨hnone, _⟩ | ⟨l, he⟩
    · exact absurd hnone hhs
    · rw [distanceStep_ph_some x d s1, he]
      intro hc
      injection hc with hc
      exact Option.noConfusion hc

/-- When `distance` is supplied and `height` is not, the distance block
leaves the `peakHeights` key present with the value `undefined`. -/
theorem distance_state_ph_undef {x : List ℚ} {opts : FindPeaksOptions}
    {s1 : PState}
    (hs1 : heightStep x opts.height ((localMaxima1D x).midpoints, {}) = .ok s1)
    (hd : opts.distance.isSome = true) (hh : opts.height = none) :
    (distanceStep x opts.distance s1).2.peakHeights = some none := by
  rw [hh] at hs1
  injection hs1 with hs1
  cases hdd : opts.distance with
  | none => rw [hdd] at hd; simp at hd
  | some d =>
    rw [distanceStep_ph_some x d s1, ← hs1]

theorem promComputeStep_ok_ph {x : List ℚ} {b : Bool} {s s2 : PState}
    (hs : promComputeStep x b s = .ok s2) :
    s2.2.peakHeights = s.2.peakHeights := by
  cases b with
  | false =>
    simp only [promComputeStep, Bool.false_eq_true, if_false] at hs
    injection hs with hs
    rw [← hs]
  | true =>
    simp only [promComputeStep, if_true] at hs
    cases hp : peakProminences x s.1 (-1) with
    | error e => rw [hp, except_bind_error] at hs; cases hs
    | ok res =>
      rw [hp, except_bind_ok, except_pure] at hs
      injection hs with hs
      rw [← hs]

theorem findPeaksBody_ok {x : List ℚ} {opts : FindPeaksOptions}
    (hh : ¬optMismatch x opts.height) (hpm : ¬optMismatch x opts.prominence)
    (hwm : ¬optMismatch x opts.width) (hcr : ¬undefFilterCrash opts) :
    ∃ r, findPeaksBody x opts = .ok r := by
  obtain ⟨s1, hs1⟩ := heightStep_ok ((localMaxima1D x).midpoints, {}) hh
  have hmem : ∀ p ∈ (distanceStep x opts.distance s1).1,
      (0 : ℚ) ≤ p ∧ p ≤ (x.length : ℚ) - 1 := by
    intro p hp
    have hsub := (distanceStep_sublist x opts.distance s1).trans
      (heightStep_ok_sublist hs1)
    have hi := midpoints_interior x p (hsub.mem hp)
    exact ⟨hi.1.le, hi.2.le⟩
  cases hnp : opts.prominence.isSome || opts.width.isSome with
  | false =>
    have hpn : opts.prominence = none := by
      cases hop : opts.prominence
      · rfl
      · rw [hop] at hnp; simp at hnp
    have hwn : opts.width = none := by
      cases how : opts.width
      · rfl
      · rw [how] at hnp; simp at hnp
    exact ⟨_, by
      simp only [findPeaksBody]
      rw [hs1, except_bind_ok, hnp, promComputeStep_false, except_bind_ok, hpn, hwn]
      rfl⟩
  | true =>
    have hcond : opts.prominence.isSome = true ∨ opts.width.isSome = true := by
      cases hop : opts.prominence with
      | none =>
        right
        rw [hop] at hnp
        simpa using hnp
      | some a =>
        left
        rfl
    have hph2 : (distanceStep x opts.distance s1).2.peakHeights ≠ some none := by
      apply distance_state_ph hs1
      intro hc
      exact hcr ⟨hc.1, hc.2, hcond⟩
    obtain ⟨s3, hs3⟩ := promComputeStep_ok_exists hmem
    obtain ⟨hs3p, proms, lbs, rbs, hp3, hl3, hr3, hplen3, hinv3⟩ :=
      promComputeStep_ok_elim hs3
    have hph3 : s3.2.peakHeights ≠ some none := by
      rw [promComputeStep_ok_ph hs3]
      exact hph2
    obtain ⟨s4, proms4, lbs4, rbs4, hs4, hp4, hl4, hr4, hplen4, hinv4, hph4⟩ :=
      promFilterStep_ok_inv hp3 hl3 hr3 hplen3 hinv3 hph3 hpm
    obtain ⟨s5, hs5⟩ := widthStep_ok hp4 hl4 hr4 hplen4 hinv4 hph4 hwm
    exact ⟨_, by
      simp only [findPeaksBody]
      rw [hs1, except_bind_ok, hnp, hs3, except_bind_ok, hs4, except_bind_ok, hs5,
        except_bind_ok, except_pure]⟩

theorem findPeaksBody_error_of_bad {x : List ℚ} {opts : FindPeaksOptions}
    (h : optMismatch x opts.height ∨ optMismatch x opts.prominence ∨
      optMismatch x opts.width ∨ undefFilterCrash opts) :
    ∃ e, findPeaksBody x opts = .error e := by
  by_cases hh : optMismatch x opts.height
  · obtain ⟨e, he⟩ := heightStep_error ((localMaxima1D x).midpoints, {}) hh
    exact ⟨e, by simp only [findPeaksBody]; rw [he, except_bind_error]⟩
  · obtain ⟨s1, hs1⟩ := heightStep_ok ((localMaxima1D x).midpoints, {}) hh
    have hmem : ∀ p ∈ (distanceStep x opts.distance s1).1,
        (0 : ℚ) ≤ p ∧ p ≤ (x.length : ℚ) - 1 := by
      intro p hp
      have hsub := (distanceStep_sublist x opts.distance s1).trans
        (heightStep_ok_sublist hs1)
      have hi := midpoints_interior x p (hsub.mem hp)
      exact ⟨hi.1.le, hi.2.le⟩
    by_cases hpm : optMismatch x opts.prominence
    · have hnp : (opts.prominence.isSome || opts.width.isSome) = true := by
        cases hop : opts.prominence
        · rw [hop] at hpm; cases hpm
        · simp [hop]
      obtain ⟨s3, hs3⟩ := promComputeStep_ok_exists hmem
      obtain ⟨e, he⟩ := promFilterStep_error s3 hpm
      exact ⟨e, by
        simp only [findPeaksBody]
        rw [hs1, except_bind_ok, hnp, hs3, except_bind_ok, he, except_bind_error]⟩
    · by_cases hcr : undefFilterCrash opts
      · obtain ⟨hd, hhn, hpw⟩ := hcr
        have hnp : (opts.prominence.isSome || opts.width.isSome) = true := by
          rcases hpw with h1 | h1
          · simp [h1]
          · simp [h1]
        have hph2 : (distanceStep x opts.distance s1).2.peakHeights =
            some none := distance_state_ph_undef hs1 hd hhn
        obtain ⟨s3, hs3⟩ := promComputeStep_ok_exists hmem
        obtain ⟨hs3p, proms, lbs, rbs, hp3, hl3, hr3, hplen3, hinv3⟩ :=
          promComputeStep_ok_elim hs3
        have hph3 : s3.2.peakHeights = some none := by
          rw [promComputeStep_ok_ph hs3]
          exact hph2
        cases hop : opts.prominence with
        | some pArg =>
          rw [hop] at hpm
          obtain ⟨e, he⟩ := promFilterStep_error_undef hph3 hpm
          exact ⟨e, by
            simp only [findPeaksBody]
            rw [hs1, except_bind_ok, hnp, hs3, except_bind_ok, hop, he,
              except_bind_error]⟩
        | none =>
          have hw : opts.width.isSome = true := by
            rcases hpw with h1 | h1
            · rw [hop] at h1; simp at h1
            · exact h1
          cases how : opts.width with
          | none => rw [how] at hw; simp at hw
          | some wArg =>
            by_cases hwm2 : optMismatch x (some wArg)
            · obtain ⟨e, he⟩ := widthStep_error hp3 hl3 hr3 hplen3 hinv3 hwm2
              exact ⟨e, by
                simp only [findPeaksBody]
                rw [hs1, except_bind_ok, hnp, hs3, except_bind_ok, hop,
                  show promFilterStep x none s3 = .ok s3 from rfl, except_bind_ok,
                  how, he, except_bind_error]⟩
            · obtain ⟨e, he⟩ :=
                widthStep_error_undef hp3 hl3 hr3 hplen3 hinv3 hph3 hwm2
              exact ⟨e, by
                simp only [findPeaksBody]
                rw [hs1, except_bind_ok, hnp, hs3, except_bind_ok, hop,
                  show promFilterStep x none s3 = .ok s3 from rfl, except_bind_ok,
                  how, he, except_bind_error]⟩
      · have hwm : optMismatch x opts.width := by
          rcases h with hc | hc | hc | hc
          · exact absurd hc hh
          · exact absurd hc hpm
          · exact hc
          · exact absurd hc hcr
        have hwS : opts.width.isSome = true := by
          cases how : opts.width
          · rw [how] at hwm; cases hwm
          · rfl
        have hnp : (opts.prominence.isSome || opts.width.isSome) = true := by
          simp [hwS]
        obtain ⟨s3, hs3⟩ := promComputeStep_ok_exists hmem
        obtain ⟨hs3p, proms, lbs, rbs, hp3, hl3, hr3, hplen3, hinv3⟩ :=
          promComputeStep_ok_elim hs3
        have hph3 : s3.2.peakHeights ≠ some none := by
          rw [promComputeStep_ok_ph hs3]
          apply distance_state_ph hs1
          intro hc
          exact hcr ⟨hc.1, hc.2, Or.inr hwS⟩
        obtain ⟨s4, proms4, lbs4, rbs4, hs4, hp4, hl4, hr4, hplen4, hinv4, hph4⟩ :=
          promFilterStep_ok_inv hp3 hl3 hr3 hplen3 hinv3 hph3 hpm
        obtain ⟨e, he⟩ := widthStep_error hp4 hl4 hr4 hplen4 hinv4 hwm
        exact ⟨e, by
          simp only [findPeaksBody]
          rw [hs1, except_bind_ok, hnp, hs3, except_bind_ok, hs4, except_bind_ok,
            he, except_bind_error]⟩

/-- Full error characterization of the pipeline: `findPeaks` errors
exactly when the distance guard fires, a bound argument carries a
mismatched border array, or the `Object.entries` filter loops hit the
present-but-`undefined` `peakHeights` entry (`distance` without `height`,
with `prominence` or `width` supplied). -/
theorem findPeaks_error_characterization (x : List ℚ) (opts : FindPeaksOptions) :
    (∃ e, findPeaks x opts = .error e) ↔
      badDistance opts.distance = true ∨ optMismatch x opts.height ∨
      optMismatch x opts.prominence ∨ optMismatch x opts.width ∨
      undefFilterCrash opts := by
  constructor
  · rintro ⟨e, he⟩
    by_cases hb : badDistance opts.distance = true
    · exact Or.inl hb
    · right
      unfold findPeaks at he
      rw [if_neg hb] at he
      by_contra hc
      push_neg at hc
      obtain ⟨r, hr⟩ := findPeaksBody_ok hc.1 hc.2.1 hc.2.2.1 hc.2.2.2
      rw [hr] at he
      cases he
  · intro h
    by_cases hb : badDistance opts.distance = true
    · exact ⟨_, by unfold findPeaks; rw [if_pos hb]⟩
    · rcases h with hd | hmm
      · exact absurd hd hb
      · obtain ⟨e, he⟩ := findPeaksBody_error_of_bad hmm
        exact ⟨e, by unfold findPeaks; rw [if_neg hb, he]⟩

/-- Claim C2 (code bug): on the very option combination the claim singles
out as returning normally - `distance` together with `prominence`, without
`height` - `findPeaks` throws a `TypeError`.  Line 104 always runs its
assignment `properties.peakHeights = properties.peakHeights?.filter(...)`,
leaving the key present with the value `undefined` when `height` is
absent, and the `Object.entries` filter loop of the prominence block
(lines 119-121) then calls `undefined.filter`.  None of the spec's listed
fail-fast preconditions holds on this input: the distance is `1` and the
prominence bound is a plain scalar. -/
theorem c2_undef_filter_typeerror :
    findPeaks [0, 1, 0, 2, 0]
        { distance := some 1, prominence := some (.scalar 0) } =
      .error "TypeError: Cannot read properties of undefined (reading filter)" ∧
    badDistance (some 1) = false ∧
    ¬optMismatch [0, 1, 0, 2, 0] (some (.scalar 0)) :=
  ⟨by with_unfolding_all decide, by with_unfolding_all decide, fun h => h⟩

/-! ## The width block at the hardwired relative height 0 (claim C6) -/

theorem except_mapM_map {ε α β : Type} (f : α → Except ε β) (g : α → β) :
    ∀ (l : List α), (∀ a ∈ l, f a = .ok (g a)) → List.mapM f l = .ok (l.map g) := by
  intro l
  induction l with
  | nil => intro _; rfl
  | cons a l ih =>
    intro h
    rw [List.mapM_cons, h a (List.mem_cons_self a l), except_bind_ok,
      ih (fun b hb => h b (List.mem_cons_of_mem a hb)), except_bind_ok, except_pure,
      List.map_cons]

theorem map_comp_getD_range {α β : Type} (d : α) (g : α → β) (l : List α) :
    ((List.range l.length).map fun i => g (l.getD i d)) = l.map g := by
  refine List.ext_getElem (by simp) ?_
  intro i h1 h2
  simp only [List.getElem_map, List.getElem_range]
  rw [getD_lt (by simpa using h2) d]
  rfl

theorem maskFrom_nil_of_false {α : Type} {keep : List Bool}
    (h : ∀ k, keep.getD k false = false) :
    ∀ (i : ℕ) (l : List α), maskFrom keep i l = [] := by
  intro i l
  induction l generalizing i with
  | nil => rfl
  | cons a l ih =>
    simp only [maskFrom]
    have hi : ¬(keep.getD i false = true) := by rw [h i]; exact Bool.false_ne_true
    rw [if_neg hi]
    exact ih (i + 1)

theorem selectByProperty_getD_lt (props : List JSVal) (pmin pmax : Bound) (k : ℕ)
    (hk : k < props.length) :
    (selectByProperty props pmin pmax).getD k false =
      (lowerOk pmin k (props.getD k none) && upperOk pmax k (props.getD k none)) := by
  unfold selectByProperty
  rw [getD_lt (by simpa using hk) false, getD_lt hk none]
  simp [List.getElem_mapIdx]

theorem selectByProperty_getD_ge (props : List JSVal) (pmin pmax : Bound) (k : ℕ)
    (hk : props.length ≤ k) :
    (selectByProperty props pmin pmax).getD k false = false := by
  unfold selectByProperty
  rw [getD_ge (by simpa using hk) false]

theorem jsLt_hv0_peak (x : List ℚ) (peak : ℚ) (prom : JSVal) :
    jsLt (widthHv x 0 peak prom) (qGet x peak) = false := by
  unfold widthHv
  cases hxp : qGet x peak with
  | none => simp [jsLt, jsSub]
  | some xp =>
    cases prom with
    | none => simp [jsLt, jsSub, jsMul]
    | some q => simp [jsLt, jsSub, jsMul]

theorem jsLt_peak_hv0 (x : List ℚ) (peak : ℚ) (prom : JSVal) :
    jsLt (qGet x peak) (widthHv x 0 peak prom) = false := by
  unfold widthHv
  cases hxp : qGet x peak with
  | none => simp [jsLt]
  | some xp =>
    cases prom with
    | none => simp [jsLt, jsSub, jsMul]
    | some q => simp [jsLt, jsSub, jsMul]

theorem widthLeftWalk_stop {x : List ℚ} {hv : JSVal} {iMin i : ℚ}
    (h : jsLt hv (qGet x i) = false) :
    ∀ fuel, widthLeftWalk x hv iMin fuel i = i := by
  intro fuel
  cases fuel with
  | zero => rfl
  | succ fuel =>
    simp only [widthLeftWalk]
    rw [if_neg (fun hc => Bool.noConfusion (h.symm.trans hc.2))]

theorem widthRightWalk_stop {x : List ℚ} {hv : JSVal} {iMax i : ℚ}
    (h : jsLt hv (qGet x i) = false) :
    ∀ fuel, widthRightWalk x hv iMax fuel i = i := by
  intro fuel
  cases fuel with
  | zero => rfl
  | succ fuel =>
    simp only [widthRightWalk]
    rw [if_neg (fun hc => Bool.noConfusion (h.symm.trans hc.2))]

/-- At the hardwired `relHeight = 0` the evaluation height is the peak's own
sample value (or `NaN` for a fractional peak index), so both interpolation
walks stop immediately at the peak, both crossing positions equal the peak
itself, and the width is exactly `0`. -/
theorem widthOne_relheight_zero {x : List ℚ} {peak : ℚ} {prom : JSVal} {lb rb : ℚ}
    (h : (0 : ℚ) ≤ lb ∧ lb ≤ peak ∧ peak ≤ rb ∧ rb < (x.length : ℚ)) :
    widthOne x 0 peak prom lb rb =
      .ok (some 0, widthHv x 0 peak prom, some peak, some peak) := by
  rw [widthOne_eq, if_neg (not_not_intro h)]
  rw [widthLeftWalk_stop (jsLt_hv0_peak x peak prom),
    widthRightWalk_stop (jsLt_hv0_peak x peak prom)]
  unfold widthLeftIp widthRightIp
  rw [if_neg (fun hc => Bool.noConfusion ((jsLt_peak_hv0 x peak prom).symm.trans hc)),
    if_neg (fun hc => Bool.noConfusion ((jsLt_peak_hv0 x peak prom).symm.trans hc))]
  simp [jsSub]

theorem peakWidths_relheight_zero {x peaks : List ℚ} {proms : List JSVal}
    {lbs rbs : List ℚ} (hplen : proms.length = peaks.length)
    (hinv : PromDataOK x peaks lbs rbs) :
    peakWidths x peaks 0 proms lbs rbs =
      .ok (peaks.map fun _ => (some 0 : JSVal),
        (List.range peaks.length).map fun p =>
          widthHv x 0 (peaks.getD p 0) (proms.getD p none),
        peaks.map some, peaks.map some) := by
  obtain ⟨hl, hr, hb⟩ := hinv
  have hall : ∀ p ∈ List.range peaks.length,
      widthOne x 0 (peaks.getD p 0) (proms.getD p none) (lbs.getD p 0)
          (rbs.getD p 0) =
        .ok (some 0, widthHv x 0 (peaks.getD p 0) (proms.getD p none),
          some (peaks.getD p 0), some (peaks.getD p 0)) := by
    intro p hp
    have hpl : p < peaks.length := List.mem_range.mp hp
    have ht : (peaks.getD p 0, (lbs.getD p 0, rbs.getD p 0)) ∈
        peaks.zip (lbs.zip rbs) := by
      rw [List.mem_iff_getElem]
      refine ⟨p, ?_, ?_⟩
      · rw [List.length_zip, List.length_zip, hl, hr]
        omega
      · rw [List.getElem_zip, List.getElem_zip, getD_lt hpl 0,
          getD_lt (show p < lbs.length by omega) 0,
          getD_lt (show p < rbs.length by omega) 0]
        rfl
    have hbt := hb _ ht
    refine widthOne_relheight_zero ⟨hbt.1, hbt.2.1, hbt.2.2.1, ?_⟩
    have h1 := hbt.2.2.2
    have hx : (x.length : ℚ) - 1 < (x.length : ℚ) := by linarith
    linarith
  have hres := except_mapM_map _ _ (List.range peaks.length) hall
  simp only [peakWidths]
  rw [if_neg (by norm_num), if_neg (not_not_intro ⟨hplen.symm, by omega, by omega⟩),
    hres, except_bind_ok]
  have e1 : (((List.range peaks.length).map fun p =>
        ((some 0 : JSVal), widthHv x 0 (peaks.getD p 0) (proms.getD p none),
          some (peaks.getD p 0), some (peaks.getD p 0))).map (·.1)) =
      peaks.map fun _ => (some 0 : JSVal) := by
    rw [List.map_map]
    exact map_comp_getD_range 0 (fun _ => (some 0 : JSVal)) peaks
  have e2 : (((List.range peaks.length).map fun p =>
        ((some 0 : JSVal), widthHv x 0 (peaks.getD p 0) (proms.getD p none),
          some (peaks.getD p 0), some (peaks.getD p 0))).map (·.2.1)) =
      (List.range peaks.length).map fun p =>
        widthHv x 0 (peaks.getD p 0) (proms.getD p none) := by
    rw [List.map_map]
    rfl
  have e3 : (((List.range peaks.length).map fun p =>
        ((some 0 : JSVal), widthHv x 0 (peaks.getD p 0) (proms.getD p none),
          some (peaks.getD p 0), some (peaks.getD p 0))).map (·.2.2.1)) =
      peaks.map some := by
    rw [List.map_map]
    exact map_comp_getD_range 0 some peaks
  have e4 : (((List.range peaks.length).map fun p =>
        ((some 0 : JSVal), widthHv x 0 (peaks.getD p 0) (proms.getD p none),
          some (peaks.getD p 0), some (peaks.getD p 0))).map (·.2.2.2)) =
      peaks.map some := by
    rw [List.map_map]
    exact map_comp_getD_range 0 some peaks
  rw [e1, e2, e3, e4]

theorem qGet_mem {vs : List ℚ} {q w : ℚ} (h : qGet vs q = some w) : w ∈ vs := by
  unfold qGet at h
  split at h
  · unfold intGet at h
    split at h
    · injection h with h
      rw [← h]
      exact List.get_mem _ _ _
    · cases h
  · cases h

theorem jsLe_none_left (b : JSVal) : jsLe none b = false := by
  cases b <;> rfl

/-- Resolution of a positive lower border through `unpackConditionArgs`:
the resolved lower bound is a positive scalar or the projection of an
all-positive per-sample array onto the peaks. -/
theorem unpack_lower_positive {x peaks : List ℚ} {wArg : BoundArg}
    {b : Bound × Bound} (hu : unpackConditionArgs wArg x peaks = .ok b)
    (hpos : positiveLower wArg) :
    (∃ c, b.1 = .scalar c ∧ 0 < c) ∨
    (∃ vs, b.1 = .perPeak (peaks.map fun i => qGet vs i) ∧ ∀ v ∈ vs, 0 < v) := by
  cases wArg with
  | scalar c =>
    injection hu with hu
    rw [← hu]
    exact Or.inl ⟨c, rfl, hpos⟩
  | pair elems =>
    simp only [positiveLower] at hpos
    simp only [unpackConditionArgs] at hu
    obtain ⟨lo, h1, hrest⟩ := except_bind_ok_elim hu
    obtain ⟨hi, h2, h3⟩ := except_bind_ok_elim hrest
    rw [except_pure] at h3
    injection h3 with h3
    cases he0 : elems[0]? with
    | none =>
      rw [he0] at hpos
      simp only [positiveLowerBorder] at hpos
    | some el =>
      rw [he0] at hpos h1
      cases el with
      | num c =>
        simp only [positiveLowerBorder] at hpos
        injection h1 with h1
        rw [← h3, ← h1]
        exact Or.inl ⟨c, rfl, hpos⟩
      | arr vs =>
        simp only [positiveLowerBorder] at hpos
        simp only [resolveBorder] at h1
        split at h1
        · injection h1 with h1
          rw [← h3, ← h1]
          right
          exact ⟨vs, rfl, hpos⟩
        · cases h1

/-- Claim C6: when the `width` option is supplied and `findPeaks` returns
normally, the orchestrator's hardwired `relHeight = 0` makes every returned
width exactly `0` and both interpolated crossing positions equal to the
peak index itself; consequently any width option imposing an
everywhere-strictly-positive lower bound - a positive scalar, a pair with
a positive number as lower border, or a pair with an all-positive
per-sample array as lower border - removes every peak. -/
theorem findPeaks_width_props {x : List ℚ} {opts : FindPeaksOptions}
    {r : FindPeaksResult} (hw : opts.width.isSome = true)
    (h : findPeaks x opts = .ok r) :
    (r.properties.widths = some (r.peaks.map fun _ => (some 0 : JSVal)) ∧
     r.properties.leftIps = some (r.peaks.map some) ∧
     r.properties.rightIps = some (r.peaks.map some)) ∧
    ∀ wArg, opts.width = some wArg → positiveLower wArg → r.peaks = [] := by
  have hbody : findPeaksBody x opts = .ok r := by
    unfold findPeaks at h
    by_cases hb : badDistance opts.distance = true
    · rw [if_pos hb] at h; cases h
    · rw [if_neg hb] at h; exact h
  have hcrN : ¬undefFilterCrash opts := by
    intro hc
    obtain ⟨e, he⟩ := findPeaksBody_error_of_bad (Or.inr (Or.inr (Or.inr hc)))
    rw [he] at hbody
    cases hbody
  obtain ⟨s1, s3, s4, s5, hs1, hs3, hs4, hs5, hr⟩ := findPeaks_ok_elim h
  have hnp : (opts.prominence.isSome || opts.width.isSome) = true := by
    rw [hw, Bool.or_true]
  rw [hnp] at hs3
  obtain ⟨hs3p, proms, lbs, rbs, hp3, hl3, hr3, hplen3, hinv3⟩ :=
    promComputeStep_ok_elim hs3
  have hpm : ¬optMismatch x opts.prominence := by
    intro hc
    obtain ⟨e, he⟩ := promFilterStep_error s3 hc
    rw [he] at hs4
    cases hs4
  have hph3 : s3.2.peakHeights ≠ some none := by
    rw [promComputeStep_ok_ph hs3]
    apply distance_state_ph hs1
    intro hc
    exact hcrN ⟨hc.1, hc.2, Or.inr hw⟩
  obtain ⟨s4x, proms4, lbs4, rbs4, hs4x, hp4, hl4, hr4, hplen4, hinv4, hph4⟩ :=
    promFilterStep_ok_inv hp3 hl3 hr3 hplen3 hinv3 hph3 hpm
  rw [hs4x] at hs4
  injection hs4 with hs4
  subst hs4
  cases how : opts.width with
  | none => rw [how] at hw; cases hw
  | some wArg =>
    rw [how] at hs5
    simp only [widthStep] at hs5
    have hgp : s4x.2.prominences.getD [] = proms4 := by rw [hp4]; rfl
    have hgl : s4x.2.leftBases.getD [] = lbs4 := by rw [hl4]; rfl
    have hgr : s4x.2.rightBases.getD [] = rbs4 := by rw [hr4]; rfl
    rw [hgp, hgl, hgr, peakWidths_relheight_zero hplen4 hinv4, except_bind_ok]
      at hs5
    obtain ⟨b, hu, hs5b⟩ := except_bind_ok_elim hs5
    obtain ⟨pr2, hf, hs5c⟩ := except_bind_ok_elim hs5b
    rw [except_pure] at hs5c
    injection hs5c with hs5c
    subst hs5c
    subst hr
    obtain ⟨hfw, hfl, hfr⟩ := filterProps_ok_elim hf
    refine ⟨⟨?_, ?_, ?_⟩, ?_⟩
    · show pr2.widths = _
      rw [hfw]
      simp only [Option.map_some', jsFilterMask, maskFrom_map]
    · show pr2.leftIps = _
      rw [hfl]
      simp only [Option.map_some', jsFilterMask, maskFrom_map]
    · show pr2.rightIps = _
      rw [hfr]
      simp only [Option.map_some', jsFilterMask, maskFrom_map]
    · intro wArg2 hw2 hpos
      injection hw2 with hw2
      subst hw2
      show jsFilterMask (selectByProperty (s4x.1.map fun _ => (some 0 : JSVal))
        b.1 b.2) s4x.1 = []
      apply maskFrom_nil_of_false
      intro k
      by_cases hk : k < (s4x.1.map fun _ => (some 0 : JSVal)).length
      · rw [selectByProperty_getD_lt _ _ _ _ hk, getD_lt hk none]
        have hm : (s4x.1.map fun _ => (some 0 : JSVal)).get ⟨k, hk⟩ = some 0 := by
          rw [List.get_eq_getElem, List.getElem_map]
        rw [hm]
        rcases unpack_lower_positive hu hpos with ⟨c, hb1, hc⟩ | ⟨vs, hb1, hvs⟩
        · have hlow : lowerOk b.1 k (some 0) = false := by
            rw [hb1]
            show decide (c ≤ 0) = false
            exact decide_eq_false (by linarith)
          rw [hlow]
          exact Bool.false_and _
        · have hk1 : k < s4x.1.length := by simpa using hk
          have hpv : (s4x.1.map fun i => qGet vs i).getD k none =
              qGet vs (s4x.1.get ⟨k, hk1⟩) := by
            rw [getD_lt (by simpa using hk1) none, List.get_eq_getElem,
              List.get_eq_getElem, List.getElem_map]
          have hlow : lowerOk b.1 k (some 0) = false := by
            rw [hb1]
            show jsLe ((s4x.1.map fun i => qGet vs i).getD k none) (some 0) = false
            rw [hpv]
            cases hq : qGet vs (s4x.1.get ⟨k, hk1⟩) with
            | none => exact jsLe_none_left _
            | some w =>
              have hw0 : 0 < w := hvs w (qGet_mem hq)
              show decide (w ≤ 0) = false
              exact decide_eq_false (by linarith)
          rw [hlow]
          exact Bool.false_and _
      · exact selectByProperty_getD_ge _ _ _ _ (by omega)

/-- Witness for `findPeaks_width_props` on the signal `[0,1,0]` with the
option `width = 0`: the single peak `1` survives with width `0` and both
crossing positions equal to `1`. -/
theorem findPeaks_width_props_witness :
    ∃ r : FindPeaksResult,
      findPeaks [0, 1, 0] { width := some (.scalar 0) } = .ok r ∧
      ((r.properties.widths = some (r.peaks.map fun _ => (some 0 : JSVal)) ∧
        r.properties.leftIps = some (r.peaks.map some) ∧
        r.properties.rightIps = some (r.peaks.map some)) ∧
       ∀ wArg, ({ width := some (.scalar 0) } : FindPeaksOptions).width =
         some wArg → positiveLower wArg → r.peaks = []) := by
  refine ⟨{ peaks := [1]
            properties := {
              prominences := some [some 1]
              leftBases := some [0]
              rightBases := some [2]
              widths := some [some 0]
              widthHeights := some [some 1]
              leftIps := some [some 1]
              rightIps := some [some 1] } },
    by with_unfolding_all decide, ?_⟩
  exact @findPeaks_width_props [0, 1, 0] { width := some (.scalar 0) } _ rfl
    (by with_unfolding_all decide)

/-! ## The width walks at relative height 1 (claim C8) -/

theorem jsLt_none_left (b : JSVal) : jsLt none b = false := by
  cases b <;> rfl

theorem jsLt_none_right (a : JSVal) : jsLt a none = false := by
  cases a <;> rfl

/-- Integer characterization of the left interpolation walk: started at an
integer index `a` with an integer lower bound `b ≤ a`, it stops at an
integer `c ∈ [b, a]`, and unless it never moved, the sample one step to the
right of the stop is strictly above the evaluation height. -/
theorem widthLeftWalk_int (x : List ℚ) (hv : JSVal) :
    ∀ (fuel : ℕ) (b a : ℤ), b ≤ a →
      ∃ c : ℤ, b ≤ c ∧ c ≤ a ∧
        widthLeftWalk x hv (b : ℚ) fuel (a : ℚ) = (c : ℚ) ∧
        ((c : ℚ) = (a : ℚ) ∨ jsLt hv (qGet x ((c : ℚ) + 1)) = true) := by
  intro fuel
  induction fuel with
  | zero => intro b a h; exact ⟨a, h, le_refl a, rfl, Or.inl rfl⟩
  | succ fuel ih =>
    intro b a h
    by_cases hg : (b : ℚ) < (a : ℚ) ∧ jsLt hv (qGet x (a : ℚ)) = true
    · have hba : b ≤ a - 1 := by
        have : b < a := by exact_mod_cast hg.1
        omega
      obtain ⟨c, h1, h2, h3, h4⟩ := ih b (a - 1) hba
      refine ⟨c, h1, by omega, ?_, ?_⟩
      · simp only [widthLeftWalk]
        rw [if_pos hg, show (a : ℚ) - 1 = ((a - 1 : ℤ) : ℚ) by push_cast; ring]
        exact h3
      · rcases h4 with h4 | h4
        · right
          have hca : c = a - 1 := by exact_mod_cast h4
          rw [show (c : ℚ) + 1 = (a : ℚ) by rw [hca]; push_cast; ring]
          exact hg.2
        · exact Or.inr h4
    · refine ⟨a, h, le_refl a, ?_, Or.inl rfl⟩
      simp only [widthLeftWalk]
      rw [if_neg hg]

/-- Mirror image of `widthLeftWalk_int` for the right walk. -/
theorem widthRightWalk_int (x : List ℚ) (hv : JSVal) :
    ∀ (fuel : ℕ) (b a : ℤ), a ≤ b →
      ∃ c : ℤ, a ≤ c ∧ c ≤ b ∧
        widthRightWalk x hv (b : ℚ) fuel (a : ℚ) = (c : ℚ) ∧
        ((c : ℚ) = (a : ℚ) ∨ jsLt hv (qGet x ((c : ℚ) - 1)) = true) := by
  intro fuel
  induction fuel with
  | zero => intro b a h; exact ⟨a, le_refl a, h, rfl, Or.inl rfl⟩
  | succ fuel ih =>
    intro b a h
    by_cases hg : (a : ℚ) < (b : ℚ) ∧ jsLt hv (qGet x (a : ℚ)) = true
    · have hba : a + 1 ≤ b := by
        have : a < b := by exact_mod_cast hg.1
        omega
      obtain ⟨c, h1, h2, h3, h4⟩ := ih b (a + 1) hba
      refine ⟨c, by omega, h2, ?_, ?_⟩
      · simp only [widthRightWalk]
        rw [if_pos hg, show (a : ℚ) + 1 = ((a + 1 : ℤ) : ℚ) by push_cast; ring]
        exact h3
      · rcases h4 with h4 | h4
        · right
          have hca : c = a + 1 := by exact_mod_cast h4
          rw [show (c : ℚ) - 1 = (a : ℚ) by rw [hca]; push_cast; ring]
          exact hg.2
        · exact Or.inr h4
    · refine ⟨a, le_refl a, h, ?_, Or.inl rfl⟩
      simp only [widthRightWalk]
      rw [if_neg hg]

theorem jsSub_none_right (a : JSVal) : jsSub a none = none := by
  cases a <;> rfl

/-- One peak of `peakWidths` at relative height 1, with prominence data
coming from `promOne` on the full window: the left crossing position lies
between the left base and the peak, and the right crossing position lies
between the peak and the right base. -/
theorem widthOne_relheight_one_bounds {x : List ℚ} {peak : ℚ} {pr : JSVal}
    {lb rb : ℚ} (hprom : promOne x (-1) peak = .ok (pr, lb, rb))
    {w wh lip rip : JSVal}
    (h : widthOne x 1 peak pr lb rb = .ok (w, wh, lip, rip)) :
    (∃ l, lip = some l ∧ lb ≤ l ∧ l ≤ peak) ∧
    (∃ u, rip = some u ∧ peak ≤ u ∧ u ≤ rb) := by
  obtain ⟨⟨hp0, hpn⟩, ⟨hlb0, hlbp, hprb, hrbn⟩, hsome⟩ := promOne_ok_bounds hprom
  rw [widthOne_eq,
    if_neg (not_not_intro ⟨hlb0, hlbp, hprb, by linarith⟩)] at h
  injection h with h
  have hlip := congrArg (fun t => t.2.2.1) h
  have hrip := congrArg (fun t => t.2.2.2) h
  simp only at hlip hrip
  have hnone :
      widthLeftIp x none (widthLeftWalk x none lb (x.length + 2) peak) = some peak ∧
      widthRightIp x none (widthRightWalk x none rb (x.length + 2) peak) =
        some peak := by
    constructor
    · rw [widthLeftWalk_stop (jsLt_none_left _)]
      unfold widthLeftIp
      rw [if_neg (fun hc => Bool.noConfusion ((jsLt_none_right _).symm.trans hc))]
    · rw [widthRightWalk_stop (jsLt_none_left _)]
      unfold widthRightIp
      rw [if_neg (fun hc => Bool.noConfusion ((jsLt_none_right _).symm.trans hc))]
  cases pr with
  | none =>
    have hhv : widthHv x 1 peak none = none := by
      unfold widthHv
      rw [show jsMul none (some 1) = none from rfl, jsSub_none_right]
    rw [hhv] at hlip hrip
    rw [hnone.1] at hlip
    rw [hnone.2] at hrip
    exact ⟨⟨peak, hlip.symm, hlbp, le_refl peak⟩,
      ⟨peak, hrip.symm, le_refl peak, hprb⟩⟩
  | some q =>
    obtain ⟨hq0, hpden, hlbden, hrbden⟩ := hsome q rfl
    cases hxp : qGet x peak with
    | none =>
      have hhv : widthHv x 1 peak (some q) = none := by
        unfold widthHv
        rw [hxp]
        rfl
      rw [hhv] at hlip hrip
      rw [hnone.1] at hlip
      rw [hnone.2] at hrip
      exact ⟨⟨peak, hlip.symm, hlbp, le_refl peak⟩,
        ⟨peak, hrip.symm, le_refl peak, hprb⟩⟩
    | some xp =>
      have hhv : widthHv x 1 peak (some q) = some (xp - q) := by
        unfold widthHv
        rw [hxp, show jsMul (some q) (some 1) = some (q * 1) from rfl, mul_one]
        rfl
      have hpz : ((peak.num : ℚ)) = peak := (Rat.den_eq_one_iff peak).mp hpden
      have hlbz : ((lb.num : ℚ)) = lb := (Rat.den_eq_one_iff lb).mp hlbden
      have hrbz : ((rb.num : ℚ)) = rb := (Rat.den_eq_one_iff rb).mp hrbden
      rw [hhv] at hlip hrip
      constructor
      · have hbp : lb.num ≤ peak.num := by
          have h1 : ((lb.num : ℚ)) ≤ ((peak.num : ℚ)) := by
            rw [hlbz, hpz]
            exact hlbp
          exact_mod_cast h1
        obtain ⟨c, hc1, hc2, hc3, hc4⟩ :=
          widthLeftWalk_int x (some (xp - q)) (x.length + 2) lb.num peak.num hbp
        rw [← hlbz, ← hpz, hc3] at hlip
        unfold widthLeftIp at hlip
        by_cases hint : jsLt (qGet x ((c : ℚ))) (some (xp - q)) = true
        · obtain ⟨xc, qb, hxc, hqb, hlt⟩ := jsLt_some hint
          injection hqb with hqb
          subst hqb
          have hne : c ≠ peak.num := by
            intro he
            rw [he, hpz, hxp] at hxc
            injection hxc with hxc
            rw [← hxc] at hlt
            linarith
          have hstep : jsLt (some (xp - q)) (qGet x ((c : ℚ) + 1)) = true := by
            rcases hc4 with h4 | h4
            · exact absurd (by exact_mod_cast h4) hne
            · exact h4
          obtain ⟨qa, xc1, hqa, hxc1, hlt1⟩ := jsLt_some hstep
          injection hqa with hqa
          subst hqa
          rw [if_pos hint, hxc, hxc1,
            show jsSub (some (xp - q)) (some xc) = some (xp - q - xc) from rfl,
            show jsSub (some xc1) (some xc) = some (xc1 - xc) from rfl] at hlip
          have hden : xc1 - xc ≠ 0 := sub_ne_zero.mpr (by linarith : xc < xc1).ne'
          have hdiv : jsDiv (some (xp - q - xc)) (some (xc1 - xc)) =
              some ((xp - q - xc) / (xc1 - xc)) := by
            show (if xc1 - xc = 0 then none else some ((xp - q - xc) / (xc1 - xc))) =
              some ((xp - q - xc) / (xc1 - xc))
            rw [if_neg hden]
          rw [hdiv, show jsAdd (some ((c : ℚ))) (some ((xp - q - xc) / (xc1 - xc))) =
            some ((c : ℚ) + (xp - q - xc) / (xc1 - xc)) from rfl] at hlip
          refine ⟨(c : ℚ) + (xp - q - xc) / (xc1 - xc), hlip.symm, ?_, ?_⟩
          · have hfrac0 : 0 < (xp - q - xc) / (xc1 - xc) :=
              div_pos (by linarith) (by linarith)
            have hcb : lb ≤ (c : ℚ) := by
              rw [← hlbz]
              exact_mod_cast hc1
            linarith
          · have hfrac1 : (xp - q - xc) / (xc1 - xc) < 1 :=
              (div_lt_one (by linarith)).mpr (by linarith)
            have hcp : (c : ℚ) + 1 ≤ peak := by
              rw [← hpz]
              have hlt2 : c < peak.num := lt_of_le_of_ne hc2 hne
              exact_mod_cast hlt2
            linarith
        · rw [if_neg hint] at hlip
          refine ⟨(c : ℚ), hlip.symm, ?_, ?_⟩
          · rw [← hlbz]
            exact_mod_cast hc1
          · rw [← hpz]
            exact_mod_cast hc2
      · have hbp : peak.num ≤ rb.num := by
          have h1 : ((peak.num : ℚ)) ≤ ((rb.num : ℚ)) := by
            rw [hrbz, hpz]
            exact hprb
          exact_mod_cast h1
        obtain ⟨c, hc1, hc2, hc3, hc4⟩ :=
          widthRightWalk_int x (some (xp - q)) (x.length + 2) rb.num peak.num hbp
        rw [← hrbz, ← hpz, hc3] at hrip
        unfold widthRightIp at hrip
        by_cases hint : jsLt (qGet x ((c : ℚ))) (some (xp - q)) = true
        · obtain ⟨xc, qb, hxc, hqb, hlt⟩ := jsLt_some hint
          injection hqb with hqb
          subst hqb
          have hne : c ≠ peak.num := by
            intro he
            rw [he, hpz, hxp] at hxc
            injection hxc with hxc
            rw [← hxc] at hlt
            linarith
          have hstep : jsLt (some (xp - q)) (qGet x ((c : ℚ) - 1)) = true := by
            rcases hc4 with h4 | h4
            · exact absurd (by exact_mod_cast h4) hne
            · exact h4
          obtain ⟨qa, xc1, hqa, hxc1, hlt1⟩ := jsLt_some hstep
          injection hqa with hqa
          subst hqa
          rw [if_pos hint, hxc, hxc1,
            show jsSub (some (xp - q)) (some xc) = some (xp - q - xc) from rfl,
            show jsSub (some xc1) (some xc) = some (xc1 - xc) from rfl] at hrip
          have hden : xc1 - xc ≠ 0 := sub_ne_zero.mpr (by linarith : xc < xc1).ne'
          have hdiv : jsDiv (some (xp - q - xc)) (some (xc1 - xc)) =
              some ((xp - q - xc) / (xc1 - xc)) := by
            show (if xc1 - xc = 0 then none else some ((xp - q - xc) / (xc1 - xc))) =
              some ((xp - q - xc) / (xc1 - xc))
            rw [if_neg hden]
          rw [hdiv, show jsSub (some ((c : ℚ))) (some ((xp - q - xc) / (xc1 - xc))) =
            some ((c : ℚ) - (xp - q - xc) / (xc1 - xc)) from rfl] at hrip
          refine ⟨(c : ℚ) - (xp - q - xc) / (xc1 - xc), hrip.symm, ?_, ?_⟩
          · have hfrac1 : (xp - q - xc) / (xc1 - xc) < 1 :=
              (div_lt_one (by linarith)).mpr (by linarith)
            have hcp : peak + 1 ≤ (c : ℚ) := by
              rw [← hpz]
              have hlt2 : peak.num < c := lt_of_le_of_ne hc1 (fun he => hne he.symm)
              exact_mod_cast hlt2
            linarith
          · have hfrac0 : 0 < (xp - q - xc) / (xc1 - xc) :=
              div_pos (by linarith) (by linarith)
            have hcb : (c : ℚ) ≤ rb := by
              rw [← hrbz]
              exact_mod_cast hc2
            linarith
        · rw [if_neg hint] at hrip
          refine ⟨(c : ℚ), hrip.symm, ?_, ?_⟩
          · rw [← hpz]
            exact_mod_cast hc1
          · rw [← hrbz]
            exact_mod_cast hc2

/-- Claim C8 (amended): at relative height 1 the interpolated crossing
positions do not in general equal the bases (see
`c8_width_relheight_one_not_bases`); what does hold, for prominence data
produced by `peakProminences` on the full window, is containment: every
left crossing lies between the left base and the peak, and every right
crossing lies between the peak and the right base. -/
theorem peakWidths_relheight_one_within_bases {x peaks : List ℚ}
    {proms : List JSVal} {lbs rbs : List ℚ}
    (hprom : peakProminences x peaks (-1) = .ok (proms, lbs, rbs))
    {ws whs lips rips : List JSVal}
    (h : peakWidths x peaks 1 proms lbs rbs = .ok (ws, whs, lips, rips)) :
    ∀ i, i < peaks.length →
      (∃ l, lips.getD i none = some l ∧ lbs.getD i 0 ≤ l ∧
        l ≤ peaks.getD i 0) ∧
      (∃ u, rips.getD i none = some u ∧ peaks.getD i 0 ≤ u ∧
        u ≤ rbs.getD i 0) := by
  simp only [peakProminences] at hprom
  cases hm : List.mapM (promOne x (-1)) peaks with
  | error e => rw [hm, except_bind_error] at hprom; cases hprom
  | ok rs =>
    rw [hm, except_bind_ok, except_pure] at hprom
    injection hprom with hprom
    have h1 := congrArg (fun t => t.1) hprom
    have h2 := congrArg (fun t => t.2.1) hprom
    have h3 := congrArg (fun t => t.2.2) hprom
    simp only at h1 h2 h3
    subst h1
    subst h2
    subst h3
    have hrl := except_mapM_length (promOne x (-1)) peaks rs hm
    obtain ⟨h0, hlen, res, hres, hr⟩ := peakWidths_ok_elim h
    have hresl := except_mapM_length _ (List.range peaks.length) res hres
    rw [List.length_range] at hresl
    have hlips := congrArg (fun t => t.2.2.1) hr
    have hrips := congrArg (fun t => t.2.2.2) hr
    simp only at hlips hrips
    intro i hi
    have hi_rs : i < rs.length := by omega
    have honeP := except_mapM_get (promOne x (-1)) peaks rs hm i hi hi_rs
    have hi_rng : i < (List.range peaks.length).length := by simpa using hi
    have hi_res : i < res.length := by omega
    have honeW := except_mapM_get _ (List.range peaks.length) res hres i hi_rng
      hi_res
    have hri : (List.range peaks.length).get ⟨i, hi_rng⟩ = i := by
      rw [List.get_eq_getElem, List.getElem_range]
    rw [hri] at honeW
    have e0 : peaks.getD i 0 = peaks.get ⟨i, hi⟩ := getD_lt hi 0
    have e1 : (rs.map (·.1)).getD i none = (rs.get ⟨i, hi_rs⟩).1 := by
      rw [getD_lt (show i < (rs.map (·.1)).length by simpa using hi_rs) none,
        List.get_eq_getElem, List.get_eq_getElem, List.getElem_map]
    have e2 : (rs.map (·.2.1)).getD i 0 = (rs.get ⟨i, hi_rs⟩).2.1 := by
      rw [getD_lt (show i < (rs.map (·.2.1)).length by simpa using hi_rs) 0,
        List.get_eq_getElem, List.get_eq_getElem, List.getElem_map]
    have e3 : (rs.map (·.2.2)).getD i 0 = (rs.get ⟨i, hi_rs⟩).2.2 := by
      rw [getD_lt (show i < (rs.map (·.2.2)).length by simpa using hi_rs) 0,
        List.get_eq_getElem, List.get_eq_getElem, List.getElem_map]
    have e4 : (res.map (·.2.2.1)).getD i none = (res.get ⟨i, hi_res⟩).2.2.1 := by
      rw [getD_lt (show i < (res.map (·.2.2.1)).length by simpa using hi_res) none,
        List.get_eq_getElem, List.get_eq_getElem, List.getElem_map]
    have e5 : (res.map (·.2.2.2)).getD i none = (res.get ⟨i, hi_res⟩).2.2.2 := by
      rw [getD_lt (show i < (res.map (·.2.2.2)).length by simpa using hi_res) none,
        List.get_eq_getElem, List.get_eq_getElem, List.getElem_map]
    rw [e0, e1, e2, e3] at honeW
    have hkey := widthOne_relheight_one_bounds honeP honeW
    rw [hlips, hrips, e0, e2, e3, e4, e5]
    exact hkey

/-- Witness for `peakWidths_relheight_one_within_bases` on the
counterexample signal `[0,5,2]` with its one peak `1`: the crossings
`2/5 ∈ [0,1]` and `2 ∈ [1,2]` lie strictly inside the base interval on the
left and at the base on the right. -/
theorem peakWidths_relheight_one_within_bases_witness :
    (∃ l, ([some (2/5)] : List JSVal).getD 0 none = some l ∧
      ([0] : List ℚ).getD 0 0 ≤ l ∧ l ≤ ([1] : List ℚ).getD 0 0) ∧
    (∃ u, ([some 2] : List JSVal).getD 0 none = some u ∧
      ([1] : List ℚ).getD 0 0 ≤ u ∧ u ≤ ([2] : List ℚ).getD 0 0) :=
  @peakWidths_relheight_one_within_bases [0, 5, 2] [1] [some 3] [0] [2]
    (by with_unfolding_all decide) [some (8/5)] [some 2] [some (2/5)] [some 2]
    (by with_unfolding_all decide) 0 (by decide)

end IotMapView
